import Mathlib

/-!
Shallow embedding of the hash-table module (`dict.c` / `dict.h`) and the
event-reactor module (`ae.c` / `ae.h`) of the repository, together with
proofs settling the specification claims.

Conventions of the embedding:
* C pointers to keys/values/client data are modelled as natural numbers
  (distinct pointers are distinct numbers); pointer identity is `Nat`
  equality.
* The `dictType` function-pointer bundle becomes a Lean structure of
  functions; the opaque `privdata` context is absorbed into the closures
  (it is threaded unchanged through every hook in the C code).
* A C function that mutates `dict *ht` and returns `DICT_OK`/`DICT_ERR`
  becomes a Lean function returning `dict × Bool` (the state after the
  call, and `true` for `DICT_OK`).  A failing path that performs no
  mutation returns the input state unchanged, exactly as the C code
  leaves `*ht` untouched on those paths.
* `random()` is modelled as an input stream (`List Nat`) of draws.
* Machine integers are modelled as `Nat`/`Int`; the only place a width
  matters is the `LONG_MAX` guard of `_dictNextPower`, kept literally.
-/

/-- One bucket-chain node of `dict.c`: owns a key and a value.  The
`next` pointer of the C struct is represented by the position in the
`List dictEntry` that models a bucket chain (head-insertion = `cons`). -/
structure dictEntry where
  key : Nat
  val : Nat
deriving DecidableEq, Repr

/-- The `dictType` behavior descriptor of `dict.h`: hash function plus
optional key/value duplicators and an optional key comparator.  The
destructors of the C struct only release memory and have no effect on
the table state, so they are not part of the value-level model. -/
structure dictType where
  hashFunction : Nat → Nat
  keyDup : Option (Nat → Nat)
  valDup : Option (Nat → Nat)
  keyCompare : Option (Nat → Nat → Bool)

/-- The `dict` structure of `dict.h`: bucket array (array of chain
heads), `size`, `sizemask`, `used`.  The `type` and `privdata` fields
never change after creation and are passed separately to every
operation, mirroring `ht->type` reads in the C code. -/
structure dict where
  table : List (List dictEntry)
  size : Nat
  sizemask : Nat
  used : Nat
deriving DecidableEq, Repr

/-- `DICT_HT_INITIAL_SIZE` of `dict.h`. -/
def DICT_HT_INITIAL_SIZE : Nat := 4

/-- `LONG_MAX` on the 64-bit platform the code targets. -/
def LONG_MAX : Nat := 2 ^ 63 - 1

/-- The `dictCompareHashKeys` macro of `dict.h`: use the configured
comparator, or pointer identity if none is configured. -/
def dictCompareHashKeys (t : dictType) (key1 key2 : Nat) : Bool :=
  match t.keyCompare with
  | some cmp => cmp key1 key2
  | none => key1 == key2

/-- The key half of the `dictSetHashKey` macro: apply the key
duplicator if configured, otherwise store the raw reference. -/
def dictDupKey (t : dictType) (key : Nat) : Nat :=
  match t.keyDup with
  | some d => d key
  | none => key

/-- The value half of the `dictSetHashVal` macro. -/
def dictDupVal (t : dictType) (val : Nat) : Nat :=
  match t.valDup with
  | some d => d val
  | none => val

/-- Bucket index computation `dictHashKey(ht, key) & mask` used
throughout `dict.c`. -/
def bucketIdx (t : dictType) (mask key : Nat) : Nat :=
  t.hashFunction key &&& mask

/-- The doubling loop of `_dictNextPower`, with explicit fuel standing
in for the C `while(1)`.  The fuel is sufficient whenever
`size ≤ fuel + i` never lets the loop run out, which the wrapper below
arranges; the loop in C terminates because `i` doubles from 4. -/
def nextPowerLoop : Nat → Nat → Nat → Nat
  | 0, _, i => i
  | fuel + 1, size, i => if size ≤ i then i else nextPowerLoop fuel size (i * 2)

/-- `_dictNextPower` of `dict.c`: the smallest value in 4, 8, 16, …
that is `≥ size`, with the literal `LONG_MAX` guard. -/
def _dictNextPower (size : Nat) : Nat :=
  if LONG_MAX ≤ size then LONG_MAX
  else nextPowerLoop size size DICT_HT_INITIAL_SIZE

/-- Head-insert entry `e` into bucket `h` of a bucket array, as the
rehash loop of `dictExpand` does with `he->next = n.table[h];
n.table[h] = he;`. -/
def bucketInsert (tbl : List (List dictEntry)) (h : Nat) (e : dictEntry) :
    List (List dictEntry) :=
  tbl.set h (e :: tbl.getD h [])

/-- Move every entry of one source chain into the destination table,
head-to-tail, recomputing each entry's bucket with the new mask —
the inner `while(he)` of the rehash loop in `dictExpand`. -/
def rehashChain (t : dictType) (mask : Nat) (chain : List dictEntry)
    (tbl : List (List dictEntry)) : List (List dictEntry) :=
  chain.foldl (fun tb e => bucketInsert tb (bucketIdx t mask e.key) e) tbl

/-- The outer rehash loop of `dictExpand`: walk the old bucket array,
stopping early once `ht->used` entries have been moved (`i < ht->size
&& ht->used > 0`), moving each chain with `rehashChain`. -/
def rehashAll (t : dictType) (mask : Nat) :
    List (List dictEntry) → Nat → List (List dictEntry) → List (List dictEntry)
  | [], _, newtbl => newtbl
  | chain :: rest, remaining, newtbl =>
    if remaining = 0 then newtbl
    else rehashAll t mask rest (remaining - chain.length) (rehashChain t mask chain newtbl)

/-- `dictExpand` of `dict.c`.  Returns the state after the call and
`true` for `DICT_OK`.  The `ht->used > size` guard compares against the
requested size, before rounding, exactly as the C code does. -/
def dictExpand (t : dictType) (ht : dict) (size : Nat) : dict × Bool :=
  let realsize := _dictNextPower size
  if ht.used > size then (ht, false)
  else
    ({ table := rehashAll t (realsize - 1) ht.table ht.used (List.replicate realsize [])
       size := realsize
       sizemask := realsize - 1
       used := ht.used }, true)

/-- `_dictExpandIfNeeded` of `dict.c`: grow to the initial size if the
table is empty, double it if `used == size`. -/
def _dictExpandIfNeeded (t : dictType) (ht : dict) : dict × Bool :=
  if ht.size = 0 then dictExpand t ht DICT_HT_INITIAL_SIZE
  else if ht.used = ht.size then dictExpand t ht (ht.size * 2)
  else (ht, true)

/-- `_dictKeyIndex` of `dict.c`: run the expand-if-needed check, then
return the target bucket index, or `none` (the C `-1`) when the expand
failed or an entry with an equal key already sits in that bucket's
chain.  The possibly-grown table is returned alongside, because the
growth performed here persists even when the index lookup fails. -/
def _dictKeyIndex (t : dictType) (ht : dict) (key : Nat) : dict × Option Nat :=
  match _dictExpandIfNeeded t ht with
  | (ht1, false) => (ht1, none)
  | (ht1, true) =>
    let h := bucketIdx t ht1.sizemask key
    if (ht1.table.getD h []).any (fun e => dictCompareHashKeys t key e.key) then
      (ht1, none)
    else
      (ht1, some h)

/-- `dictAdd` of `dict.c`: locate the slot via `_dictKeyIndex`, then
head-insert a fresh entry carrying the (possibly duplicated) key and
value and increment `used`. -/
def dictAdd (t : dictType) (ht : dict) (key val : Nat) : dict × Bool :=
  match _dictKeyIndex t ht key with
  | (ht1, none) => (ht1, false)
  | (ht1, some index) =>
    let entry : dictEntry := { key := dictDupKey t key, val := dictDupVal t val }
    ({ ht1 with
        table := ht1.table.set index (entry :: ht1.table.getD index [])
        used := ht1.used + 1 }, true)

/-- Unlink the first chain node whose key compares equal to `key` —
the scan-and-unlink of `dictGenericDelete`.  `none` when no node
matches. -/
def removeFirstMatch (t : dictType) (key : Nat) : List dictEntry → Option (List dictEntry)
  | [] => none
  | e :: rest =>
    if dictCompareHashKeys t key e.key then some rest
    else (removeFirstMatch t key rest).map (e :: ·)

/-- `dictGenericDelete` of `dict.c`.  The `nofree` flag of the C code
only selects whether the key/value destructors run, which has no effect
on the table state, so it is not a parameter here. -/
def dictGenericDelete (t : dictType) (ht : dict) (key : Nat) : dict × Bool :=
  if ht.size = 0 then (ht, false)
  else
    let h := bucketIdx t ht.sizemask key
    match removeFirstMatch t key (ht.table.getD h []) with
    | none => (ht, false)
    | some chain =>
      ({ ht with table := ht.table.set h chain, used := ht.used - 1 }, true)

/-- `dictDelete` of `dict.c`. -/
def dictDelete (t : dictType) (ht : dict) (key : Nat) : dict × Bool :=
  dictGenericDelete t ht key

/-- `dictFind` of `dict.c`: `none` models the `NULL` result. -/
def dictFind (t : dictType) (ht : dict) (key : Nat) : Option dictEntry :=
  if ht.size = 0 then none
  else (ht.table.getD (bucketIdx t ht.sizemask key) []).find?
    (fun e => dictCompareHashKeys t key e.key)

/-- `dictCreate`/`_dictInit`/`_dictReset` of `dict.c`: a fresh table
with a null bucket array and all counters zero. -/
def dictCreate : dict :=
  { table := [], size := 0, sizemask := 0, used := 0 }

/-- The pick-within-chain step of `dictGetRandomKey`: count the chain
(`listlen`), reduce the next draw modulo it (`listele`) and walk to
that position.  `none` when the finite draw stream has run out. -/
def chainPick (chain : List dictEntry) : List Nat → Option dictEntry
  | [] => none
  | s :: _ => chain.get? (s % chain.length)

/-- The rejection loop of `dictGetRandomKey`, consuming the stream of
`random()` draws: draw bucket indices until a non-empty bucket is hit,
then pick a position in that bucket's chain.  `none` when the finite
stream runs out. -/
def randomPick (ht : dict) : List Nat → Option dictEntry
  | [] => none
  | r :: rest =>
    if (ht.table.getD (r &&& ht.sizemask) []).isEmpty then randomPick ht rest
    else chainPick (ht.table.getD (r &&& ht.sizemask) []) rest

/-- `dictGetRandomKey` of `dict.c`: `NULL` immediately when `used` is
zero, otherwise rejection-sample a bucket and a position within it. -/
def dictGetRandomKey (ht : dict) (draws : List Nat) : Option dictEntry :=
  if ht.used = 0 then none
  else randomPick ht draws

example : dictFind { hashFunction := id, keyDup := none, valDup := none, keyCompare := none }
    { table := [[⟨0, 7⟩], [], [], []], size := 4, sizemask := 3, used := 1 } 0 =
    some ⟨0, 7⟩ := by decide

/-! ### Concrete behavior descriptors and tables used by witnesses -/

/-- A behavior descriptor with the identity hash, no duplicators and no
comparator (key equality is pointer identity), the simplest legal
`dictType`. -/
def natIdType : dictType :=
  { hashFunction := id, keyDup := none, valDup := none, keyCompare := none }

/-- A table holding the four keys 0, 1, 2, 3, built by four insertions
into a fresh table; it has `size = 4` and `used = 4`, so the next
insertion triggers the doubling check. -/
def fullTable4 : dict :=
  (dictAdd natIdType
    (dictAdd natIdType
      (dictAdd natIdType
        (dictAdd natIdType dictCreate 0 10).1 1 11).1 2 12).1 3 13).1

/-- A table holding just the key 0, with `size = 4` and `used = 1`. -/
def smallTable1 : dict :=
  (dictAdd natIdType dictCreate 0 10).1

/-- A table holding the three keys 0, 1, 2, with `size = 4` and
`used = 3`. -/
def fullTable4WithThree : dict :=
  (dictAdd natIdType
    (dictAdd natIdType
      (dictAdd natIdType dictCreate 0 10).1 1 11).1 2 12).1

/-! ### C1 -/

/-- C1, counterexample: inserting the already-present key 0 into a
table with `used = size = 4` fails, but does NOT leave the table
byte-for-byte unchanged — `dictAdd` runs `_dictExpandIfNeeded` before
the duplicate check, so the table is doubled to size 8 (and rehashed)
before the insert fails. -/
theorem dictAdd_existing_key_growth_counterexample :
    (dictAdd natIdType fullTable4 0 99).2 = false ∧
    (dictAdd natIdType fullTable4 0 99).1 ≠ fullTable4 ∧
    (dictAdd natIdType fullTable4 0 99).1.size = 8 ∧ fullTable4.size = 4 := by
  decide

/-- C1, amended: `dictAdd` on a key that is already present fails and
leaves the table byte-for-byte unchanged PROVIDED the insertion does
not trigger the pre-insertion growth check, i.e. `used ≠ size`.  (When
`used = size`, the table is first doubled and only then the duplicate
is detected, as the counterexample shows.) -/
theorem dictAdd_existing_key_no_growth_unchanged (t : dictType) (ht : dict)
    (key val : Nat) (hfind : dictFind t ht key ≠ none)
    (hns : ht.used ≠ ht.size) :
    dictAdd t ht key val = (ht, false) := by
  have hsz : ¬ ht.size = 0 := by
    intro h0
    exact hfind (by simp [dictFind, h0])
  have hany : (ht.table.getD (bucketIdx t ht.sizemask key) []).any
      (fun e => dictCompareHashKeys t key e.key) = true := by
    rw [dictFind, if_neg hsz] at hfind
    rcases Option.ne_none_iff_exists'.mp hfind with ⟨e, he⟩
    have hmem := List.mem_of_find?_eq_some he
    have hp := List.find?_some he
    exact List.any_eq_true.mpr ⟨e, hmem, hp⟩
  rw [dictAdd, _dictKeyIndex, _dictExpandIfNeeded, if_neg hsz, if_neg hns]
  simp only [hany, if_true]

/-- C1, witness for the amended theorem, at a table with `used = 1 <
4 = size` holding the key 0. -/
theorem dictAdd_existing_key_no_growth_unchanged_witness :
    dictFind natIdType smallTable1 0 ≠ none ∧
    smallTable1.used ≠ smallTable1.size ∧
    dictAdd natIdType smallTable1 0 99 = (smallTable1, false) :=
  ⟨by decide, by decide,
    dictAdd_existing_key_no_growth_unchanged natIdType smallTable1 0 99
      (by decide) (by decide)⟩

/-! ### C4 -/

/-- C4: a resize request strictly smaller than the current live-entry
count fails and returns the table unchanged.  The guard `ht->used >
size` compares against the requested, pre-rounding size `n`: the
theorem covers every `n < used`, including those whose rounded-up
power-of-two target would be large enough (see the witness). -/
theorem dictExpand_small_request_fails (t : dictType) (ht : dict) (n : Nat)
    (h : n < ht.used) : dictExpand t ht n = (ht, false) := by
  rw [dictExpand]
  simp only [if_pos h]

/-- C4, witness: `expand(table_with_used_3, 2)` fails with the table
unchanged, even though the rounded-up target `_dictNextPower 2 = 4`
would have been large enough for the 3 live entries — showing the
guard uses the pre-rounding request. -/
theorem dictExpand_small_request_fails_witness :
    (2 < fullTable4WithThree.used ∧
      dictExpand natIdType fullTable4WithThree 2 = (fullTable4WithThree, false)) ∧
    _dictNextPower 2 = 4 ∧ fullTable4WithThree.used ≤ 4 :=
  ⟨⟨by decide,
    dictExpand_small_request_fails natIdType fullTable4WithThree 2 (by decide)⟩,
   by decide, by decide⟩

/-! ### C10 -/

/-- C10: on a table with no live entries (`used = 0`), `dictGetRandomKey`
returns the not-found result immediately, whatever the stream of random
draws holds; no bucket is sampled and — structurally, since the function
does not even receive the behavior descriptor, mirroring the C code
which never calls `dictHashKey` here — no hash or hook is invoked, and
no state is returned, so the table is unchanged. -/
theorem dictGetRandomKey_empty_none (ht : dict) (h : ht.used = 0)
    (draws : List Nat) : dictGetRandomKey ht draws = none := by
  simp [dictGetRandomKey, h]

/-- C10, witness: a freshly created table that has never grown. -/
theorem dictGetRandomKey_empty_none_witness :
    dictCreate.used = 0 ∧ dictGetRandomKey dictCreate [5, 17, 3] = none :=
  ⟨by decide, dictGetRandomKey_empty_none dictCreate (by decide) [5, 17, 3]⟩

/-! ### Well-formedness of a `dict` and supporting lemmas -/

/-- Masking with an all-ones mask is reduction modulo the power of two:
the arithmetic content of `hash & sizemask` when `sizemask = size - 1`
and `size = 2 ^ k`. -/
theorem land_two_pow_sub_one_eq_mod (x k : Nat) : x &&& (2 ^ k - 1) = x % 2 ^ k := by
  apply Nat.eq_of_testBit_eq
  intro i
  rw [Nat.testBit_land, Nat.testBit_two_pow_sub_one, Nat.testBit_mod_two_pow, Bool.and_comm]

/-- The number of live entries of a bucket array. -/
def entryCount (tbl : List (List dictEntry)) : Nat :=
  tbl.flatten.length

/-- Every entry of the bucket array sits in the chain selected by its
own key's hash under the given mask. -/
def tblPlaced (t : dictType) (mask : Nat) (tbl : List (List dictEntry)) : Prop :=
  ∀ i, i < tbl.length → ∀ e ∈ tbl.getD i [], bucketIdx t mask e.key = i

/-- The resting-state invariant of a `dict`, as the specification
states it: `used` counts the live entries; `size` is either 0 (never
yet grown) or a power of two at least 4 with `sizemask = size - 1` and
`used ≤ size`; every stored key resides in bucket
`hash(key) & (size - 1)`. -/
def dictWF (t : dictType) (ht : dict) : Prop :=
  ht.used = entryCount ht.table ∧
  ht.table.length = ht.size ∧
  ht.sizemask = ht.size - 1 ∧
  (ht.size = 0 ∨ ((∃ k, ht.size = 2 ^ k) ∧ 4 ≤ ht.size ∧ ht.used ≤ ht.size)) ∧
  tblPlaced t (ht.size - 1) ht.table

theorem getD_set_self {α : Type} (l : List α) (i : Nat) (x d : α)
    (h : i < l.length) : (l.set i x).getD i d = x := by
  simp [List.getD, List.getElem?_set, h]

theorem getD_set_ne {α : Type} (l : List α) (i j : Nat) (x d : α)
    (h : i ≠ j) : (l.set i x).getD j d = l.getD j d := by
  simp [List.getD, List.getElem?_set, h]

theorem flatten_set_cons_perm {α : Type} :
    ∀ (tbl : List (List α)) (i : Nat) (e : α), i < tbl.length →
    List.Perm (tbl.set i (e :: tbl.getD i [])).flatten (e :: tbl.flatten)
  | [], i, _, h => absurd h (by simp)
  | c :: rest, 0, e, _ => by simp
  | c :: rest, i + 1, e, h => by
    have hset : (c :: rest).set (i + 1) (e :: (c :: rest).getD (i + 1) []) =
        c :: rest.set i (e :: rest.getD i []) := by
      rw [List.getD_cons_succ]
      rfl
    rw [hset, List.flatten_cons, List.flatten_cons]
    have ih := flatten_set_cons_perm rest i e (by simpa using h)
    exact (ih.append_left c).trans List.perm_middle

theorem getD_eq_get {α : Type} (l : List α) (i : Nat) (d : α)
    (h : i < l.length) : l.getD i d = l.get ⟨i, h⟩ := by
  simp [List.getD, List.getElem?_eq_getElem, h]

theorem getD_eq_default {α : Type} (l : List α) (i : Nat) (d : α)
    (h : l.length ≤ i) : l.getD i d = d := by
  simp [List.getD, List.getElem?_eq_none, h]

theorem mem_getD_mem_flatten {α : Type} (tbl : List (List α)) (i : Nat)
    (x : α) (hx : x ∈ tbl.getD i []) : x ∈ tbl.flatten := by
  rcases Nat.lt_or_ge i tbl.length with h | h
  · rw [getD_eq_get _ _ _ h] at hx
    exact List.mem_flatten.mpr ⟨tbl.get ⟨i, h⟩, tbl.get_mem i h, hx⟩
  · rw [getD_eq_default _ _ _ h] at hx
    simp at hx

/-- `bucketInsert` keeps the array length, adds the entry to the pool
of entries (up to permutation), and keeps every entry well placed when
the entry is inserted at its own bucket. -/
theorem bucketInsert_length (tbl : List (List dictEntry)) (h : Nat) (e : dictEntry) :
    (bucketInsert tbl h e).length = tbl.length := by
  simp [bucketInsert]

theorem bucketInsert_flatten_perm (tbl : List (List dictEntry)) (h : Nat)
    (e : dictEntry) (hh : h < tbl.length) :
    List.Perm (bucketInsert tbl h e).flatten (e :: tbl.flatten) :=
  flatten_set_cons_perm tbl h e hh

theorem bucketInsert_placed (t : dictType) (mask : Nat)
    (tbl : List (List dictEntry)) (h : Nat) (e : dictEntry)
    (hp : tblPlaced t mask tbl) (he : bucketIdx t mask e.key = h) :
    tblPlaced t mask (bucketInsert tbl h e) := by
  intro i hi x hx
  rw [bucketInsert_length] at hi
  by_cases hih : h = i
  · subst hih
    rw [bucketInsert, getD_set_self _ _ _ _ hi] at hx
    rcases List.mem_cons.mp hx with hxe | hx
    · rw [hxe]; exact he
    · exact hp h hi x hx
  · rw [bucketInsert, getD_set_ne _ _ _ _ _ hih] at hx
    exact hp i hi x hx

/-- Combined facts about moving one chain into the new bucket array. -/
theorem rehashChain_spec (t : dictType) (mask : Nat) :
    ∀ (chain : List dictEntry) (tbl : List (List dictEntry)),
    (∀ key, t.hashFunction key &&& mask < tbl.length) →
    (rehashChain t mask chain tbl).length = tbl.length ∧
    List.Perm (rehashChain t mask chain tbl).flatten (chain ++ tbl.flatten) ∧
    (tblPlaced t mask tbl → tblPlaced t mask (rehashChain t mask chain tbl))
  | [], tbl, _ => ⟨rfl, by simp [rehashChain], fun hp => hp⟩
  | e :: chain, tbl, hb => by
    have hbe : bucketIdx t mask e.key < tbl.length := hb e.key
    have step : rehashChain t mask (e :: chain) tbl =
        rehashChain t mask chain (bucketInsert tbl (bucketIdx t mask e.key) e) := rfl
    have hb' : ∀ key, t.hashFunction key &&& mask <
        (bucketInsert tbl (bucketIdx t mask e.key) e).length := by
      intro key; rw [bucketInsert_length]; exact hb key
    obtain ⟨ihlen, ihperm, ihplaced⟩ :=
      rehashChain_spec t mask chain (bucketInsert tbl (bucketIdx t mask e.key) e) hb'
    refine ⟨by rw [step, ihlen, bucketInsert_length], ?_, ?_⟩
    · rw [step]
      refine ihperm.trans ?_
      have h1 := bucketInsert_flatten_perm tbl (bucketIdx t mask e.key) e hbe
      exact (h1.append_left chain).trans List.perm_middle
    · intro hp
      rw [step]
      exact ihplaced (bucketInsert_placed t mask tbl _ e hp rfl)

/-- Combined facts about the outer rehash loop of `dictExpand`, run
with `remaining` equal to the exact number of entries still to move. -/
theorem rehashAll_spec (t : dictType) (mask : Nat) :
    ∀ (src : List (List dictEntry)) (newtbl : List (List dictEntry)),
    (∀ key, t.hashFunction key &&& mask < newtbl.length) →
    (rehashAll t mask src (entryCount src) newtbl).length = newtbl.length ∧
    List.Perm (rehashAll t mask src (entryCount src) newtbl).flatten
      (src.flatten ++ newtbl.flatten) ∧
    (tblPlaced t mask newtbl →
      tblPlaced t mask (rehashAll t mask src (entryCount src) newtbl))
  | [], newtbl, _ => ⟨rfl, by simp [rehashAll], fun hp => hp⟩
  | chain :: rest, newtbl, hb => by
    by_cases hz : entryCount (chain :: rest) = 0
    · have hflat : (chain :: rest).flatten = [] :=
        List.length_eq_zero.mp hz
      rw [rehashAll, if_pos hz]
      exact ⟨rfl, by rw [hflat]; exact (List.Perm.refl _), fun hp => hp⟩
    · have hrem : entryCount (chain :: rest) - chain.length = entryCount rest := by
        simp only [entryCount, List.flatten_cons, List.length_append]
        omega
      obtain ⟨clen, cperm, cplaced⟩ := rehashChain_spec t mask chain newtbl hb
      have hb' : ∀ key, t.hashFunction key &&& mask <
          (rehashChain t mask chain newtbl).length := by
        intro key; rw [clen]; exact hb key
      obtain ⟨ihlen, ihperm, ihplaced⟩ :=
        rehashAll_spec t mask rest (rehashChain t mask chain newtbl) hb'
      rw [rehashAll, if_neg hz, hrem]
      refine ⟨by rw [ihlen, clen], ?_, fun hp => ihplaced (cplaced hp)⟩
      refine ihperm.trans ?_
      rw [List.flatten_cons, List.append_assoc]
      refine (cperm.append_left rest.flatten).trans ?_
      rw [← List.append_assoc, ← List.append_assoc]
      exact List.perm_append_comm.append_right newtbl.flatten

/-! ### Facts about `_dictNextPower` -/

theorem nextPowerLoop_ge : ∀ (fuel size i : Nat), size ≤ fuel + i → 0 < i →
    size ≤ nextPowerLoop fuel size i
  | 0, _, _, hfuel, _ => by simpa [nextPowerLoop] using hfuel
  | fuel + 1, size, i, hfuel, hi => by
    rw [nextPowerLoop]
    by_cases h : size ≤ i
    · rwa [if_pos h]
    · rw [if_neg h]
      exact nextPowerLoop_ge fuel size (i * 2) (by omega) (by omega)

theorem nextPowerLoop_shape : ∀ (fuel size i : Nat),
    ∃ m, nextPowerLoop fuel size i = i * 2 ^ m
  | 0, _, i => ⟨0, by simp [nextPowerLoop]⟩
  | fuel + 1, size, i => by
    rw [nextPowerLoop]
    by_cases h : size ≤ i
    · exact ⟨0, by simp [h]⟩
    · obtain ⟨m, hm⟩ := nextPowerLoop_shape fuel size (i * 2)
      exact ⟨m + 1, by
        rw [if_neg h, hm]
        ring⟩

theorem nextPowerLoop_exact : ∀ (fuel k j : Nat), j ≤ k → k - j ≤ fuel →
    nextPowerLoop fuel (2 ^ k) (2 ^ j) = 2 ^ k
  | 0, k, j, hjk, hfuel => by
    have hkj : k = j := by omega
    simp [nextPowerLoop, hkj]
  | fuel + 1, k, j, hjk, hfuel => by
    rw [nextPowerLoop]
    by_cases h : 2 ^ k ≤ 2 ^ j
    · have hklej : k ≤ j := by
        by_contra hc
        have hlt : (2 : Nat) ^ j < 2 ^ k := Nat.pow_lt_pow_right (by norm_num) (by omega)
        omega
      have hkj : j = k := le_antisymm hjk hklej
      rw [if_pos h, hkj]
    · have hjk2 : j < k := by
        by_contra hc
        exact h (Nat.pow_le_pow_right (by norm_num) (by omega))
      rw [if_neg h]
      have h2 : 2 ^ j * 2 = 2 ^ (j + 1) := by ring
      rw [h2]
      exact nextPowerLoop_exact fuel k (j + 1) (by omega) (by omega)

theorem four_le_dictNextPower (n : Nat) : 4 ≤ _dictNextPower n := by
  rw [_dictNextPower]
  by_cases h : LONG_MAX ≤ n
  · rw [if_pos h, LONG_MAX]
    norm_num
  · rw [if_neg h]
    obtain ⟨m, hm⟩ := nextPowerLoop_shape n n DICT_HT_INITIAL_SIZE
    rw [hm, DICT_HT_INITIAL_SIZE]
    have : 1 ≤ 2 ^ m := Nat.one_le_two_pow
    omega

theorem le_dictNextPower (n : Nat) (h : n < LONG_MAX) : n ≤ _dictNextPower n := by
  rw [_dictNextPower, if_neg (by omega)]
  exact nextPowerLoop_ge n n DICT_HT_INITIAL_SIZE (by rw [DICT_HT_INITIAL_SIZE]; omega)
    (by rw [DICT_HT_INITIAL_SIZE]; omega)

theorem _dictNextPower_pow_exact (k : Nat) (h2 : 2 ≤ k) (hlt : 2 ^ k < LONG_MAX) :
    _dictNextPower (2 ^ k) = 2 ^ k := by
  rw [_dictNextPower, if_neg (by omega)]
  have h4 : DICT_HT_INITIAL_SIZE = 2 ^ 2 := by norm_num [DICT_HT_INITIAL_SIZE]
  rw [h4]
  have hk : k < 2 ^ k := Nat.lt_two_pow k
  exact nextPowerLoop_exact (2 ^ k) k 2 h2 (by omega)

/-! ### The effect of `dictExpand` on a well-formed table -/

theorem flatten_replicate_nil {α : Type} : ∀ (n : Nat),
    (List.replicate n ([] : List α)).flatten = []
  | 0 => rfl
  | n + 1 => by rw [List.replicate, List.flatten_cons, List.nil_append,
      flatten_replicate_nil n]

theorem tblPlaced_replicate (t : dictType) (mask n : Nat) :
    tblPlaced t mask (List.replicate n []) := by
  intro i hi e he
  rw [List.length_replicate] at hi
  rw [getD_eq_get _ _ _ (by simpa using hi)] at he
  simp at he

/-- Everything a successful `dictExpand` guarantees on a well-formed
table: success, the new geometry, unchanged `used`, the same pool of
entries (up to permutation), and well-placedness under the new mask. -/
theorem dictExpand_spec (t : dictType) (ht : dict) (n : Nat)
    (hwf : dictWF t ht) (hn : ht.used ≤ n) :
    (dictExpand t ht n).2 = true ∧
    (dictExpand t ht n).1.size = _dictNextPower n ∧
    (dictExpand t ht n).1.sizemask = _dictNextPower n - 1 ∧
    (dictExpand t ht n).1.used = ht.used ∧
    (dictExpand t ht n).1.table.length = _dictNextPower n ∧
    List.Perm (dictExpand t ht n).1.table.flatten ht.table.flatten ∧
    tblPlaced t (_dictNextPower n - 1) (dictExpand t ht n).1.table := by
  obtain ⟨hcount, _, _, _, _⟩ := hwf
  have hguard : ¬ ht.used > n := by omega
  have hb : ∀ key, t.hashFunction key &&& (_dictNextPower n - 1) <
      (List.replicate (_dictNextPower n) ([] : List dictEntry)).length := by
    intro key
    rw [List.length_replicate]
    have h1 : t.hashFunction key &&& (_dictNextPower n - 1) ≤ _dictNextPower n - 1 :=
      Nat.and_le_right
    have h4 := four_le_dictNextPower n
    omega
  obtain ⟨rlen, rperm, rplaced⟩ :=
    rehashAll_spec t (_dictNextPower n - 1) ht.table
      (List.replicate (_dictNextPower n) []) hb
  rw [← hcount] at rlen rperm rplaced
  have hres : dictExpand t ht n =
      ({ table := rehashAll t (_dictNextPower n - 1) ht.table ht.used
            (List.replicate (_dictNextPower n) [])
         size := _dictNextPower n
         sizemask := _dictNextPower n - 1
         used := ht.used }, true) := by
    rw [dictExpand]
    simp only [if_neg hguard]
  rw [hres]
  refine ⟨rfl, rfl, rfl, rfl, ?_, ?_, ?_⟩
  · rw [rlen, List.length_replicate]
  · refine rperm.trans ?_
    rw [flatten_replicate_nil, List.append_nil]
  · exact rplaced (tblPlaced_replicate t _ _)

/-- In a well-placed table, a hash-compatible comparator can only match
entries that live in the bucket the key hashes to. -/
theorem placed_mem_bucket (t : dictType) (mask : Nat)
    (tbl : List (List dictEntry)) (hp : tblPlaced t mask tbl)
    (hcmp : ∀ k1 k2, dictCompareHashKeys t k1 k2 = true →
      t.hashFunction k1 = t.hashFunction k2)
    (key : Nat) (e : dictEntry) (he : e ∈ tbl.flatten)
    (hm : dictCompareHashKeys t key e.key = true) :
    e ∈ tbl.getD (bucketIdx t mask key) [] := by
  obtain ⟨c, hc, hec⟩ := List.mem_flatten.mp he
  obtain ⟨⟨i, hi⟩, hgi⟩ := List.mem_iff_get.mp hc
  have hgd : tbl.getD i [] = c := by rw [getD_eq_get _ _ _ hi, hgi]
  have hplace : bucketIdx t mask e.key = i := hp i hi e (by rw [hgd]; exact hec)
  have hbk : bucketIdx t mask key = bucketIdx t mask e.key := by
    rw [bucketIdx, bucketIdx, hcmp key e.key hm]
  rw [hbk, hplace, hgd]
  exact hec

/-! ### C2 -/

/-- C2: a successful `dictExpand` (any request `n ≥ used`; all
allocation succeeds in the model, as `_dictAlloc` aborts rather than
returns on OOM) preserves the table's contents: `dictFind` gives the
same answer for every key afterwards — the same entry (key and value)
when one was found, still-absent when not — and `used` is unchanged by
the rehash.  Hypotheses: the table is well formed, the comparator only
equates keys with equal hashes (true of every `dictType` shipped in
`dict.c`), and no two distinct entries match the same key (guaranteed
for tables built by `dictAdd`, which refuses duplicates). -/
theorem dictExpand_preserves_find (t : dictType) (ht : dict) (n : Nat)
    (hwf : dictWF t ht)
    (hcmp : ∀ k1 k2, dictCompareHashKeys t k1 k2 = true →
      t.hashFunction k1 = t.hashFunction k2)
    (huniq : ∀ key e1 e2, e1 ∈ ht.table.flatten → e2 ∈ ht.table.flatten →
      dictCompareHashKeys t key e1.key = true →
      dictCompareHashKeys t key e2.key = true → e1 = e2)
    (hn : ht.used ≤ n) :
    (dictExpand t ht n).2 = true ∧
    (dictExpand t ht n).1.used = ht.used ∧
    ∀ key, dictFind t (dictExpand t ht n).1 key = dictFind t ht key := by
  obtain ⟨hok, hsize, hmask, hused, hlen, hperm, hplaced⟩ := dictExpand_spec t ht n hwf hn
  refine ⟨hok, hused, ?_⟩
  intro key
  set ht' := (dictExpand t ht n).1 with hht'
  have hsz' : ¬ ht'.size = 0 := by
    rw [hsize]
    have := four_le_dictNextPower n
    omega
  rw [dictFind, if_neg hsz']
  by_cases hsz : ht.size = 0
  · have hfind_old : dictFind t ht key = none := by rw [dictFind, if_pos hsz]
    rw [hfind_old]
    obtain ⟨hcount, hlen0, _, _, _⟩ := hwf
    have htbl : ht.table = [] := List.length_eq_zero.mp (by rw [hlen0, hsz])
    have hfl : ht'.table.flatten = [] := by
      rw [htbl] at hperm
      have h0 : List.Perm ht'.table.flatten [] := by simpa using hperm
      exact h0.eq_nil
    apply List.find?_eq_none.mpr
    intro x hx
    have hxf : x ∈ ht'.table.flatten := mem_getD_mem_flatten _ _ _ hx
    rw [hfl] at hxf
    simp at hxf
  · obtain ⟨hcount, hlenold, hmaskold, hgeom, hplacedold⟩ := hwf
    rw [dictFind, if_neg hsz]
    cases hfold : (ht.table.getD (bucketIdx t ht.sizemask key) []).find?
        (fun e => dictCompareHashKeys t key e.key) with
    | some e =>
      have heb := List.mem_of_find?_eq_some hfold
      have hpe := List.find?_some hfold
      have hefl : e ∈ ht.table.flatten := mem_getD_mem_flatten _ _ _ heb
      have hefl' : e ∈ ht'.table.flatten := hperm.mem_iff.mpr hefl
      have heb' : e ∈ ht'.table.getD (bucketIdx t ht'.sizemask key) [] := by
        have hin := placed_mem_bucket t (_dictNextPower n - 1) ht'.table hplaced
          hcmp key e hefl' hpe
        rwa [← hmask] at hin
      cases hfnew : (ht'.table.getD (bucketIdx t ht'.sizemask key) []).find?
          (fun e => dictCompareHashKeys t key e.key) with
      | some e2 =>
        have he2b := List.mem_of_find?_eq_some hfnew
        have hpe2 := List.find?_some hfnew
        have he2fl : e2 ∈ ht.table.flatten :=
          hperm.mem_iff.mp (mem_getD_mem_flatten _ _ _ he2b)
        rw [huniq key e2 e he2fl hefl hpe2 hpe]
      | none =>
        exact absurd hpe (List.find?_eq_none.mp hfnew e heb')
    | none =>
      apply List.find?_eq_none.mpr
      intro x hx hpx
      have hxfl : x ∈ ht.table.flatten :=
        hperm.mem_iff.mp (mem_getD_mem_flatten _ _ _ hx)
      have hxb : x ∈ ht.table.getD (bucketIdx t ht.sizemask key) [] := by
        have hin := placed_mem_bucket t (ht.size - 1) ht.table hplacedold
          hcmp key x hxfl hpx
        rwa [← hmaskold] at hin
      exact (List.find?_eq_none.mp hfold x hxb) hpx

/-- C2, witness: expanding the one-entry table to 8 slots keeps the
entry findable with its value and keeps `used = 1`. -/
theorem dictExpand_preserves_find_witness :
    dictWF natIdType smallTable1 ∧ smallTable1.used ≤ 8 ∧
    (dictExpand natIdType smallTable1 8).2 = true ∧
    (dictExpand natIdType smallTable1 8).1.used = smallTable1.used ∧
    dictFind natIdType (dictExpand natIdType smallTable1 8).1 0 =
      dictFind natIdType smallTable1 0 := by
  have hwf : dictWF natIdType smallTable1 :=
    ⟨by decide, by decide, by decide,
     Or.inr ⟨⟨2, by decide⟩, by decide, by decide⟩,
     by unfold tblPlaced; decide⟩
  have hcmp : ∀ k1 k2, dictCompareHashKeys natIdType k1 k2 = true →
      natIdType.hashFunction k1 = natIdType.hashFunction k2 := by
    intro k1 k2 h
    have hk : k1 = k2 := by simpa [dictCompareHashKeys, natIdType] using h
    rw [hk]
  have huniq : ∀ key e1 e2, e1 ∈ smallTable1.table.flatten →
      e2 ∈ smallTable1.table.flatten →
      dictCompareHashKeys natIdType key e1.key = true →
      dictCompareHashKeys natIdType key e2.key = true → e1 = e2 := by
    intro key e1 e2 h1 h2 _ _
    have hfl : smallTable1.table.flatten = [⟨0, 10⟩] := by decide
    rw [hfl] at h1 h2
    have h1e := List.mem_singleton.mp h1
    have h2e := List.mem_singleton.mp h2
    rw [h1e, h2e]
  obtain ⟨a, b, c⟩ := dictExpand_preserves_find natIdType smallTable1 8 hwf hcmp huniq
    (by decide)
  exact ⟨hwf, by decide, a, b, c 0⟩

/-! ### C3: the invariant over insert/delete sequences -/

theorem flatten_set_length {α : Type} : ∀ (tbl : List (List α)) (i : Nat)
    (c : List α), i < tbl.length →
    ((tbl.set i c).flatten).length + (tbl.getD i []).length =
      tbl.flatten.length + c.length
  | [], i, _, h => absurd h (by simp)
  | d :: rest, 0, c, _ => by
    simp only [List.set_cons_zero, List.flatten_cons, List.length_append,
      List.getD_cons_zero]
    omega
  | d :: rest, i + 1, c, h => by
    have hstep : (d :: rest).set (i + 1) c = d :: rest.set i c := rfl
    rw [hstep, List.getD_cons_succ, List.flatten_cons, List.flatten_cons]
    have ih := flatten_set_length rest i c (by simpa using h)
    simp only [List.length_append]
    omega

theorem getD_length_le_flatten {α : Type} (tbl : List (List α)) (i : Nat)
    (h : i < tbl.length) : (tbl.getD i []).length ≤ tbl.flatten.length := by
  rw [getD_eq_get _ _ _ h]
  exact (List.sublist_flatten_of_mem (tbl.get_mem i h)).length_le

theorem removeFirstMatch_sublist (t : dictType) (key : Nat) :
    ∀ (chain chain' : List dictEntry),
    removeFirstMatch t key chain = some chain' → List.Sublist chain' chain
  | [], _, h => by simp [removeFirstMatch] at h
  | e :: rest, chain', h => by
    rw [removeFirstMatch] at h
    by_cases hc : dictCompareHashKeys t key e.key
    · rw [if_pos hc] at h
      cases h
      exact List.sublist_cons_self e rest
    · rw [if_neg hc] at h
      cases hrec : removeFirstMatch t key rest with
      | none => rw [hrec] at h; simp at h
      | some l =>
        rw [hrec] at h
        simp only [Option.map_some'] at h
        cases h
        exact (removeFirstMatch_sublist t key rest l hrec).cons₂ e

theorem removeFirstMatch_length (t : dictType) (key : Nat) :
    ∀ (chain chain' : List dictEntry),
    removeFirstMatch t key chain = some chain' →
    chain.length = chain'.length + 1
  | [], _, h => by simp [removeFirstMatch] at h
  | e :: rest, chain', h => by
    rw [removeFirstMatch] at h
    by_cases hc : dictCompareHashKeys t key e.key
    · rw [if_pos hc] at h
      cases h
      rfl
    · rw [if_neg hc] at h
      cases hrec : removeFirstMatch t key rest with
      | none => rw [hrec] at h; simp at h
      | some l =>
        rw [hrec] at h
        simp only [Option.map_some'] at h
        cases h
        have ih := removeFirstMatch_length t key rest l hrec
        simp [ih]

/-- Zeta-reduced, `let`-free form of `dictGenericDelete`, used for
rewriting in proofs. -/
theorem dictGenericDelete_eq (t : dictType) (ht : dict) (key : Nat) :
    dictGenericDelete t ht key =
      if ht.size = 0 then (ht, false)
      else
        match removeFirstMatch t key
            (ht.table.getD (bucketIdx t ht.sizemask key) []) with
        | none => (ht, false)
        | some chain =>
          ({ ht with
              table := ht.table.set (bucketIdx t ht.sizemask key) chain,
              used := ht.used - 1 }, true) := rfl

/-- `dictDelete` preserves the invariant and never increases `used`. -/
theorem dictDelete_wf (t : dictType) (ht : dict) (key : Nat)
    (hwf : dictWF t ht) :
    dictWF t (dictDelete t ht key).1 ∧ (dictDelete t ht key).1.used ≤ ht.used := by
  by_cases hsz : ht.size = 0
  · rw [dictDelete, dictGenericDelete_eq, if_pos hsz]
    exact ⟨hwf, le_refl _⟩
  · obtain ⟨hcount, hlen, hmask, hgeom, hplaced⟩ := hwf
    rcases hgeom with h0 | ⟨hpow, h4, hle⟩
    · exact absurd h0 hsz
    cases hrem : removeFirstMatch t key
        (ht.table.getD (bucketIdx t ht.sizemask key) []) with
    | none =>
      rw [dictDelete, dictGenericDelete_eq, if_neg hsz, hrem]
      exact ⟨⟨hcount, hlen, hmask, Or.inr ⟨hpow, h4, hle⟩, hplaced⟩, le_refl _⟩
    | some chain =>
      have heq : dictDelete t ht key =
          ({ table := ht.table.set (bucketIdx t ht.sizemask key) chain
             size := ht.size
             sizemask := ht.sizemask
             used := ht.used - 1 }, true) := by
        rw [dictDelete, dictGenericDelete_eq, if_neg hsz, hrem]
      rw [heq]
      have hb : bucketIdx t ht.sizemask key < ht.table.length := by
        have h1 : bucketIdx t ht.sizemask key ≤ ht.sizemask := Nat.and_le_right
        omega
      have hlchain := removeFirstMatch_length t key _ chain hrem
      have hchain_le := getD_length_le_flatten ht.table _ hb
      have hflat := flatten_set_length ht.table (bucketIdx t ht.sizemask key) chain hb
      rw [entryCount] at hcount
      refine ⟨⟨?_, ?_, hmask, ?_, ?_⟩, ?_⟩
      · show ht.used - 1 =
          entryCount (ht.table.set (bucketIdx t ht.sizemask key) chain)
        rw [entryCount]
        omega
      · show (ht.table.set (bucketIdx t ht.sizemask key) chain).length = ht.size
        rw [List.length_set]
        exact hlen
      · refine Or.inr ⟨hpow, h4, ?_⟩
        show ht.used - 1 ≤ ht.size
        omega
      · show tblPlaced t (ht.size - 1)
          (ht.table.set (bucketIdx t ht.sizemask key) chain)
        intro i hi e he
        rw [List.length_set] at hi
        by_cases hih : bucketIdx t ht.sizemask key = i
        · subst hih
          rw [getD_set_self _ _ _ _ hb] at he
          have hmem : e ∈ ht.table.getD (bucketIdx t ht.sizemask key) [] :=
            (removeFirstMatch_sublist t key _ chain hrem).subset he
          exact hplaced _ hb e hmem
        · rw [getD_set_ne _ _ _ _ _ hih] at he
          exact hplaced i hi e he
      · show ht.used - 1 ≤ ht.used
        omega

/-- A successful `dictExpand` to an exact power of two at least 4
preserves the invariant. -/
theorem dictExpand_wf_exact (t : dictType) (ht : dict) (k : Nat)
    (hwf : dictWF t ht) (hk : 2 ≤ k) (hlt : 2 ^ k < LONG_MAX)
    (hn : ht.used ≤ 2 ^ k) :
    (dictExpand t ht (2 ^ k)).2 = true ∧
    dictWF t (dictExpand t ht (2 ^ k)).1 ∧
    (dictExpand t ht (2 ^ k)).1.used = ht.used ∧
    (dictExpand t ht (2 ^ k)).1.size = 2 ^ k := by
  have hnp : _dictNextPower (2 ^ k) = 2 ^ k := _dictNextPower_pow_exact k hk hlt
  obtain ⟨hok, hsize, hmask, hused, hlen, hperm, hplaced⟩ :=
    dictExpand_spec t ht (2 ^ k) hwf hn
  rw [hnp] at hsize hmask hlen hplaced
  obtain ⟨hcount, _, _, _, _⟩ := hwf
  refine ⟨hok, ⟨?_, ?_, ?_, ?_, ?_⟩, hused, hsize⟩
  · rw [hused, hcount, entryCount, entryCount]
    exact hperm.length_eq.symm
  · rw [hlen, hsize]
  · rw [hmask, hsize]
  · refine Or.inr ⟨⟨k, hsize⟩, ?_, ?_⟩
    · rw [hsize]
      calc (4 : Nat) = 2 ^ 2 := by norm_num
      _ ≤ 2 ^ k := Nat.pow_le_pow_right (by norm_num) hk
    · rw [hused, hsize]
      exact hn
  · rw [hsize]
    exact hplaced

/-- `_dictExpandIfNeeded` always succeeds on a well-formed table (only
allocation can fail in C, and the model's allocator cannot), preserves
the invariant and `used`, and leaves room: `used < size` afterwards. -/
theorem _dictExpandIfNeeded_wf (t : dictType) (ht : dict)
    (hwf : dictWF t ht) (hbound : ht.used ≤ 2 ^ 61) :
    (_dictExpandIfNeeded t ht).2 = true ∧
    dictWF t (_dictExpandIfNeeded t ht).1 ∧
    (_dictExpandIfNeeded t ht).1.used = ht.used ∧
    ht.used < (_dictExpandIfNeeded t ht).1.size := by
  by_cases hsz : ht.size = 0
  · have hused0 : ht.used = 0 := by
      obtain ⟨hcount, hlen, _, _, _⟩ := hwf
      have htbl : ht.table = [] := List.length_eq_zero.mp (by rw [hlen, hsz])
      rw [hcount, htbl]
      rfl
    rw [_dictExpandIfNeeded, if_pos hsz]
    have h4 : DICT_HT_INITIAL_SIZE = 2 ^ 2 := by norm_num [DICT_HT_INITIAL_SIZE]
    rw [h4]
    obtain ⟨hok, hwf', hused, hsizeq⟩ := dictExpand_wf_exact t ht 2 hwf (le_refl 2)
      (by norm_num [LONG_MAX]) (by omega)
    refine ⟨hok, hwf', hused, ?_⟩
    rw [hsizeq]
    omega
  · rw [_dictExpandIfNeeded, if_neg hsz]
    obtain ⟨hcount, hlen, hmask, hgeom, hplaced⟩ := hwf
    rcases hgeom with h0 | ⟨⟨k, hk⟩, h4, hle⟩
    · exact absurd h0 hsz
    by_cases hfull : ht.used = ht.size
    · rw [if_pos hfull]
      have hk2 : 2 ≤ k := by
        by_contra hc
        have h2k : (2 : Nat) ^ k ≤ 2 ^ 1 := Nat.pow_le_pow_right (by norm_num) (by omega)
        omega
      have hkk : ht.size * 2 = 2 ^ (k + 1) := by rw [hk]; ring
      rw [hkk]
      have h1 : (2 : Nat) ^ k ≤ 2 ^ 61 := by rw [← hk, ← hfull]; exact hbound
      have hlt : 2 ^ (k + 1) < LONG_MAX := by
        have h2 : (2 : Nat) ^ (k + 1) = 2 * 2 ^ k := by ring
        have h3 : (2 : Nat) ^ 62 = 2 * 2 ^ 61 := by norm_num
        have h5 : (2 : Nat) ^ 62 < LONG_MAX := by rw [LONG_MAX]; norm_num
        omega
      have hn : ht.used ≤ 2 ^ (k + 1) := by
        have h2 : (2 : Nat) ^ k ≤ 2 ^ (k + 1) := Nat.pow_le_pow_right (by norm_num) (by omega)
        omega
      obtain ⟨hok, hwf', hused, hsizeq⟩ :=
        dictExpand_wf_exact t ht (k + 1)
          ⟨hcount, hlen, hmask, Or.inr ⟨⟨k, hk⟩, h4, hle⟩, hplaced⟩ (by omega) hlt hn
      refine ⟨hok, hwf', hused, ?_⟩
      rw [hsizeq]
      have h2 : (2 : Nat) ^ (k + 1) = 2 * 2 ^ k := by ring
      omega
    · rw [if_neg hfull]
      refine ⟨rfl, ⟨hcount, hlen, hmask, Or.inr ⟨⟨k, hk⟩, h4, hle⟩, hplaced⟩, rfl, ?_⟩
      show ht.used < ht.size
      omega

/-- `dictAdd` preserves the invariant (when the key duplicator, if
configured, preserves the key's hash — true of `_dictStringCopyHTKeyDup`,
which copies the bytes) and increases `used` by at most one. -/
theorem dictAdd_wf (t : dictType) (ht : dict) (key val : Nat)
    (hdup : ∀ k, t.hashFunction (dictDupKey t k) = t.hashFunction k)
    (hwf : dictWF t ht) (hbound : ht.used ≤ 2 ^ 61) :
    dictWF t (dictAdd t ht key val).1 ∧
    (dictAdd t ht key val).1.used ≤ ht.used + 1 := by
  obtain ⟨hok, hwf1, hused1, hlt1⟩ := _dictExpandIfNeeded_wf t ht hwf hbound
  have hE : _dictExpandIfNeeded t ht = ((_dictExpandIfNeeded t ht).1, true) := by
    rw [← hok]
  have hKI : _dictKeyIndex t ht key =
      (if ((_dictExpandIfNeeded t ht).1.table.getD
            (bucketIdx t (_dictExpandIfNeeded t ht).1.sizemask key) []).any
          (fun e => dictCompareHashKeys t key e.key)
       then ((_dictExpandIfNeeded t ht).1, none)
       else ((_dictExpandIfNeeded t ht).1,
         some (bucketIdx t (_dictExpandIfNeeded t ht).1.sizemask key))) := by
    rw [_dictKeyIndex, hE]
  by_cases hany : ((_dictExpandIfNeeded t ht).1.table.getD
      (bucketIdx t (_dictExpandIfNeeded t ht).1.sizemask key) []).any
      (fun e => dictCompareHashKeys t key e.key) = true
  · have hres : dictAdd t ht key val = ((_dictExpandIfNeeded t ht).1, false) := by
      rw [dictAdd, hKI, if_pos hany]
    rw [hres]
    exact ⟨hwf1, by rw [hused1]; omega⟩
  · have hres : dictAdd t ht key val =
        ({ (_dictExpandIfNeeded t ht).1 with
            table := (_dictExpandIfNeeded t ht).1.table.set
              (bucketIdx t (_dictExpandIfNeeded t ht).1.sizemask key)
              ({ key := dictDupKey t key, val := dictDupVal t val } ::
                (_dictExpandIfNeeded t ht).1.table.getD
                  (bucketIdx t (_dictExpandIfNeeded t ht).1.sizemask key) [])
            used := (_dictExpandIfNeeded t ht).1.used + 1 }, true) := by
      rw [dictAdd, hKI, if_neg hany]
    rw [hres]
    obtain ⟨hcount1, hlen1, hmask1, hgeom1, hplaced1⟩ := hwf1
    rcases hgeom1 with h0 | ⟨hpow1, h41, hle1⟩
    · rw [h0] at hlt1
      omega
    have hb1 : bucketIdx t (_dictExpandIfNeeded t ht).1.sizemask key <
        (_dictExpandIfNeeded t ht).1.table.length := by
      have h1 : bucketIdx t (_dictExpandIfNeeded t ht).1.sizemask key ≤
          (_dictExpandIfNeeded t ht).1.sizemask := Nat.and_le_right
      omega
    have hperm := bucketInsert_flatten_perm (_dictExpandIfNeeded t ht).1.table
      (bucketIdx t (_dictExpandIfNeeded t ht).1.sizemask key)
      { key := dictDupKey t key, val := dictDupVal t val } hb1
    refine ⟨⟨?_, ?_, ?_, ?_, ?_⟩, ?_⟩
    · show (_dictExpandIfNeeded t ht).1.used + 1 = entryCount _
      rw [entryCount]
      have hl := hperm.length_eq
      rw [bucketInsert] at hl
      rw [hl]
      rw [entryCount] at hcount1
      simp only [List.length_cons]
      omega
    · show (List.set _ _ _).length = (_dictExpandIfNeeded t ht).1.size
      rw [List.length_set]
      exact hlen1
    · exact hmask1
    · exact Or.inr ⟨hpow1, h41, by
        show (_dictExpandIfNeeded t ht).1.used + 1 ≤ (_dictExpandIfNeeded t ht).1.size
        omega⟩
    · show tblPlaced t ((_dictExpandIfNeeded t ht).1.size - 1) (List.set _ _ _)
      have hplace_entry : bucketIdx t ((_dictExpandIfNeeded t ht).1.size - 1)
          (dictDupKey t key) = bucketIdx t (_dictExpandIfNeeded t ht).1.sizemask key := by
        rw [bucketIdx, bucketIdx, hdup key, hmask1]
      exact bucketInsert_placed t _ _ _ _ hplaced1 hplace_entry
    · show (_dictExpandIfNeeded t ht).1.used + 1 ≤ ht.used + 1
      omega

/-- One application-level operation on a table: an insertion
(`dictAdd`) or a deletion (`dictDelete`). -/
inductive DictOp where
  | insertOp (key val : Nat)
  | deleteOp (key : Nat)

/-- Apply one operation; the table state after the call is kept whether
the operation succeeded or failed, as a C caller's `dict *ht` is. -/
def applyOp (t : dictType) (ht : dict) : DictOp → dict
  | DictOp.insertOp k v => (dictAdd t ht k v).1
  | DictOp.deleteOp k => (dictDelete t ht k).1

/-- Run a sequence of operations from a freshly created table. -/
def runOps (t : dictType) (ops : List DictOp) : dict :=
  ops.foldl (applyOp t) dictCreate

/-- The number of insertions in a sequence (an upper bound for `used`). -/
def insertCount : List DictOp → Nat
  | [] => 0
  | DictOp.insertOp _ _ :: rest => insertCount rest + 1
  | DictOp.deleteOp _ :: rest => insertCount rest

theorem runOps_wf_aux (t : dictType)
    (hdup : ∀ k, t.hashFunction (dictDupKey t k) = t.hashFunction k) :
    ∀ (ops : List DictOp) (ht : dict) (c : Nat), dictWF t ht → ht.used ≤ c →
    c + insertCount ops ≤ 2 ^ 61 →
    dictWF t (ops.foldl (applyOp t) ht) ∧
    (ops.foldl (applyOp t) ht).used ≤ c + insertCount ops
  | [], ht, c, hwf, hu, _ => ⟨hwf, by rw [insertCount]; simpa using hu⟩
  | DictOp.insertOp k v :: rest, ht, c, hwf, hu, hb => by
    have hcnt : insertCount (DictOp.insertOp k v :: rest) = insertCount rest + 1 := rfl
    rw [hcnt] at hb
    obtain ⟨hwf', hu'⟩ := dictAdd_wf t ht k v hdup hwf (by omega)
    have hrec := runOps_wf_aux t hdup rest (dictAdd t ht k v).1 (c + 1) hwf'
      (by omega) (by omega)
    have hfold : (DictOp.insertOp k v :: rest).foldl (applyOp t) ht =
        rest.foldl (applyOp t) (dictAdd t ht k v).1 := rfl
    rw [hfold, hcnt]
    exact ⟨hrec.1, by omega⟩
  | DictOp.deleteOp k :: rest, ht, c, hwf, hu, hb => by
    have hcnt : insertCount (DictOp.deleteOp k :: rest) = insertCount rest := rfl
    rw [hcnt] at hb
    obtain ⟨hwf', hu'⟩ := dictDelete_wf t ht k hwf
    have hrec := runOps_wf_aux t hdup rest (dictDelete t ht k).1 c hwf'
      (by omega) (by omega)
    have hfold : (DictOp.deleteOp k :: rest).foldl (applyOp t) ht =
        rest.foldl (applyOp t) (dictDelete t ht k).1 := rfl
    rw [hfold, hcnt]
    exact hrec

theorem dictCreate_wf (t : dictType) : dictWF t dictCreate := by
  refine ⟨rfl, rfl, rfl, Or.inl rfl, ?_⟩
  intro i hi e he
  simp [dictCreate] at hi

/-! ### C3 -/

/-- C3: after any sequence of insert/delete operations starting from a
freshly created table, the resting-state invariant holds: `used` equals
the number of live entries, `size` is either 0 (never yet grown) or a
power of two ≥ 4 with `sizemask = size - 1` and `used ≤ size`, and
every stored key resides in the bucket indexed `hash(key) & (size-1)`.
Since the sequence is arbitrary, this covers every point between
operations (each such point is the final state of a prefix).
Hypotheses: the key duplicator (when configured) preserves the key's
hash, and the sequence performs at most `2^61` insertions — a bound
amply above anything a real machine can allocate, needed because with
`≥ 2^62` live entries the doubling request would cross the literal
`LONG_MAX` clamp of `_dictNextPower` (in C, `_dictAlloc` would have
aborted the process long before). -/
theorem dict_invariant_over_sequences (t : dictType) (ops : List DictOp)
    (hdup : ∀ k, t.hashFunction (dictDupKey t k) = t.hashFunction k)
    (hbound : insertCount ops ≤ 2 ^ 61) :
    dictWF t (runOps t ops) :=
  (runOps_wf_aux t hdup ops dictCreate 0 (dictCreate_wf t) (le_refl 0)
    (by omega)).1

/-- C3, witness: a small insert/insert/delete/insert sequence on the
identity-hash descriptor. -/
theorem dict_invariant_over_sequences_witness :
    (∀ k, natIdType.hashFunction (dictDupKey natIdType k) = natIdType.hashFunction k) ∧
    insertCount [DictOp.insertOp 1 2, DictOp.insertOp 5 6, DictOp.deleteOp 1,
      DictOp.insertOp 9 10] ≤ 2 ^ 61 ∧
    dictWF natIdType (runOps natIdType [DictOp.insertOp 1 2, DictOp.insertOp 5 6,
      DictOp.deleteOp 1, DictOp.insertOp 9 10]) :=
  ⟨fun _ => rfl, by decide,
    dict_invariant_over_sequences natIdType _ (fun _ => rfl) (by decide)⟩

/-! ### C9: bucket-uniform sampling of `dictGetRandomKey` -/

/-- An element occurring exactly once in a list occupies a unique
position. -/
theorem count_one_get_unique {α : Type} [DecidableEq α] :
    ∀ (l : List α) (e : α), l.count e = 1 →
    ∀ (i j : Nat) (hi : i < l.length) (hj : j < l.length),
      l.get ⟨i, hi⟩ = e → l.get ⟨j, hj⟩ = e → i = j
  | [], _, _, i, _, hi, _, _, _ => absurd hi (by simp)
  | _ :: _, _, _, 0, 0, _, _, _, _ => rfl
  | a :: tl, e, hc, 0, j + 1, hi, hj, hgi, hgj => by
    exfalso
    have ha : a = e := hgi
    have hj' : j < tl.length := by simpa using hj
    have hgj' : tl.get ⟨j, hj'⟩ = e := hgj
    have hmem : e ∈ tl := hgj' ▸ tl.get_mem j hj'
    have hpos : 0 < tl.count e := List.count_pos_iff.mpr hmem
    have hcc : (a :: tl).count e = tl.count e + 1 := by
      rw [ha, List.count_cons_self]
    omega
  | a :: tl, e, hc, i + 1, 0, hi, hj, hgi, hgj => by
    exfalso
    have ha : a = e := hgj
    have hi' : i < tl.length := by simpa using hi
    have hgi' : tl.get ⟨i, hi'⟩ = e := hgi
    have hmem : e ∈ tl := hgi' ▸ tl.get_mem i hi'
    have hpos : 0 < tl.count e := List.count_pos_iff.mpr hmem
    have hcc : (a :: tl).count e = tl.count e + 1 := by
      rw [ha, List.count_cons_self]
    omega
  | a :: tl, e, hc, i + 1, j + 1, hi, hj, hgi, hgj => by
    have hi' : i < tl.length := by simpa using hi
    have hj' : j < tl.length := by simpa using hj
    have hgi' : tl.get ⟨i, hi'⟩ = e := hgi
    have hgj' : tl.get ⟨j, hj'⟩ = e := hgj
    have htl : tl.count e = 1 := by
      have hmem : e ∈ tl := hgi' ▸ tl.get_mem i hi'
      have hpos : 0 < tl.count e := List.count_pos_iff.mpr hmem
      have hle : tl.count e ≤ (a :: tl).count e :=
        (List.sublist_cons_self a tl).count_le e
      omega
    have := count_one_get_unique tl e htl i j hi' hj' hgi' hgj'
    omega

/-- The rejection loop of `dictGetRandomKey` consumes and discards
every draw that lands on an empty bucket. -/
theorem randomPick_skip (ht : dict) : ∀ (misses draws : List Nat),
    (∀ m ∈ misses, ht.table.getD (m &&& ht.sizemask) [] = []) →
    randomPick ht (misses ++ draws) = randomPick ht draws
  | [], _, _ => rfl
  | m :: misses, draws, hm => by
    rw [List.cons_append, randomPick, hm m (List.mem_cons_self m misses)]
    simp only [List.isEmpty_nil, if_true]
    exact randomPick_skip ht misses draws (fun x hx => hm x (List.mem_cons_of_mem m hx))

/-- Evaluation of the sampling body on a bucket draw followed by a
position draw. -/
theorem randomPick_pair (ht : dict) (r s : Nat) :
    randomPick ht [r, s] =
      if (ht.table.getD (r &&& ht.sizemask) []).isEmpty then none
      else (ht.table.getD (r &&& ht.sizemask) []).get?
        (s % (ht.table.getD (r &&& ht.sizemask) []).length) := by
  rw [randomPick]
  by_cases hc : (ht.table.getD (r &&& ht.sizemask) []).isEmpty = true
  · rw [if_pos hc, if_pos hc, randomPick]
    by_cases hc2 : (ht.table.getD (s &&& ht.sizemask) []).isEmpty = true
    · rw [if_pos hc2]
      rfl
    · rw [if_neg hc2]
      rfl
  · rw [if_neg hc, if_neg hc]
    rfl

/-- The set of non-empty bucket indices. -/
def nonemptyBuckets (ht : dict) : Finset Nat :=
  (Finset.range ht.size).filter (fun r => ht.table.getD r [] ≠ [])

/-- Counting draws in `range (m * L)` that select position `j` modulo
`L`: exactly `m` of them (the rejection-free half of uniformity). -/
theorem card_filter_mod (L j : Nat) (hj : j < L) : ∀ (m : Nat),
    ((Finset.range (m * L)).filter (fun s => s % L = j)).card = m
  | 0 => by simp
  | m + 1 => by
    have hsplit : (m + 1) * L = m * L + L := by ring
    rw [hsplit, Finset.range_add, Finset.filter_union]
    have hdis : Disjoint
        ((Finset.range (m * L)).filter (fun s => s % L = j))
        (((Finset.range L).map (addLeftEmbedding (m * L))).filter
          (fun s => s % L = j)) := by
      rw [Finset.disjoint_left]
      intro x hx hx2
      rw [Finset.mem_filter, Finset.mem_range] at hx
      rw [Finset.mem_filter, Finset.mem_map] at hx2
      obtain ⟨⟨y, _, hy⟩, _⟩ := hx2
      rw [addLeftEmbedding_apply] at hy
      omega
    rw [Finset.card_union_of_disjoint hdis, card_filter_mod L j hj m]
    have hmap : (((Finset.range L).map (addLeftEmbedding (m * L))).filter
        (fun s => s % L = j)).card = 1 := by
      rw [Finset.filter_map, Finset.card_map]
      have hcongr : (Finset.range L).filter ((fun s => s % L = j) ∘ addLeftEmbedding (m * L)) =
          (Finset.range L).filter (fun x => x = j) := by
        apply Finset.filter_congr
        intro x hx
        rw [Finset.mem_range] at hx
        simp only [Function.comp, addLeftEmbedding_apply]
        constructor
        · intro hmod
          have h1 : (m * L + x) % L = x % L := by
            rw [Nat.mul_comm m L]
            exact Nat.mul_add_mod L m x
          rw [h1, Nat.mod_eq_of_lt hx] at hmod
          exact hmod
        · intro hx'
          have h1 : (m * L + x) % L = x % L := by
            rw [Nat.mul_comm m L]
            exact Nat.mul_add_mod L m x
          rw [h1, Nat.mod_eq_of_lt hx, hx']
      rw [hcongr, Finset.filter_eq']
      rw [if_pos (Finset.mem_range.mpr hj)]
      rfl
    rw [hmap]

/-- C9: modelling `random()` as an input stream, `dictGetRandomKey`
first selects a bucket by rejection-sampling indices until a non-empty
bucket is hit (first conjunct: draws that land on empty buckets are
discarded and do not affect the outcome), and then selects a position
uniformly within that bucket's chain.  Over the uniform sample space of
one in-range bucket draw and one position draw (with the draw range `K`
a multiple of the chain length), the number of outcomes returning a
given entry `e`, times (number of non-empty buckets × the length of
`e`'s chain), equals the number of successful outcomes — i.e. the
conditional probability of returning `e` is
`1 / (#nonempty buckets · chain length)`: uniform over non-empty
buckets, not over entries when chain lengths differ. -/
theorem dictGetRandomKey_bucket_uniform (ht : dict) (K h : Nat) (e : dictEntry)
    (hlen : ht.table.length = ht.size)
    (hpow : ∃ k, ht.size = 2 ^ k)
    (hmask : ht.sizemask = ht.size - 1)
    (hused : ¬ ht.used = 0)
    (hh : h < ht.size)
    (hchain : e ∈ ht.table.getD h [])
    (huniq : ∀ i, i < ht.table.length → e ∈ ht.table.getD i [] → i = h)
    (hcnt : (ht.table.getD h []).count e = 1)
    (hK : (ht.table.getD h []).length ∣ K) :
    (∀ (misses draws : List Nat),
      (∀ m ∈ misses, ht.table.getD (m &&& ht.sizemask) [] = []) →
      dictGetRandomKey ht (misses ++ draws) = dictGetRandomKey ht draws) ∧
    ((Finset.range ht.size ×ˢ Finset.range K).filter
        (fun p => dictGetRandomKey ht [p.1, p.2] = some e)).card *
      ((nonemptyBuckets ht).card * (ht.table.getD h []).length) =
    ((Finset.range ht.size ×ˢ Finset.range K).filter
        (fun p => ¬ dictGetRandomKey ht [p.1, p.2] = none)).card := by
  obtain ⟨k, hk⟩ := hpow
  have hL : 0 < (ht.table.getD h []).length := List.length_pos_of_mem hchain
  obtain ⟨⟨j0, hj0⟩, hget⟩ := List.mem_iff_get.mp hchain
  constructor
  · intro misses draws hm
    rw [dictGetRandomKey, dictGetRandomKey, if_neg hused, if_neg hused]
    exact randomPick_skip ht misses draws hm
  · have hid : ∀ r, r < ht.size → r &&& ht.sizemask = r := by
      intro r hr
      rw [hmask, hk, land_two_pow_sub_one_eq_mod]
      exact Nat.mod_eq_of_lt (by rw [← hk]; exact hr)
    have heval : ∀ r s, r < ht.size →
        dictGetRandomKey ht [r, s] =
          if (ht.table.getD r []).isEmpty then none
          else (ht.table.getD r []).get? (s % (ht.table.getD r []).length) := by
      intro r s hr
      rw [dictGetRandomKey, if_neg hused, randomPick_pair, hid r hr]
    have hev : ∀ p : Nat × Nat, p ∈ Finset.range ht.size ×ˢ Finset.range K →
        ((dictGetRandomKey ht [p.1, p.2] = some e) ↔
          (p.1 = h ∧ p.2 % (ht.table.getD h []).length = j0)) := by
      intro p hp
      rw [Finset.mem_product, Finset.mem_range, Finset.mem_range] at hp
      rw [heval p.1 p.2 hp.1]
      constructor
      · intro hsome
        by_cases hemp : (ht.table.getD p.1 []).isEmpty = true
        · rw [if_pos hemp] at hsome
          exact absurd hsome (by simp)
        · rw [if_neg hemp] at hsome
          have hmem : e ∈ ht.table.getD p.1 [] := List.get?_mem hsome
          have hph : p.1 = h := huniq p.1 (by rw [hlen]; exact hp.1) hmem
          refine ⟨hph, ?_⟩
          rw [hph] at hsome
          have hlt : p.2 % (ht.table.getD h []).length <
              (ht.table.getD h []).length := Nat.mod_lt _ hL
          rw [List.get?_eq_get hlt] at hsome
          exact count_one_get_unique _ e hcnt _ j0 hlt hj0
            (Option.some.inj hsome) hget
      · rintro ⟨hph, hmod⟩
        rw [hph]
        have hemp : ¬ (ht.table.getD h []).isEmpty = true := by
          intro hc
          rw [List.isEmpty_iff] at hc
          rw [hc] at hchain
          simp at hchain
        rw [if_neg hemp]
        have hlt : p.2 % (ht.table.getD h []).length <
            (ht.table.getD h []).length := Nat.mod_lt _ hL
        rw [List.get?_eq_get hlt]
        have hfin : (⟨p.2 % (ht.table.getD h []).length, hlt⟩ :
            Fin (ht.table.getD h []).length) = ⟨j0, hj0⟩ := Fin.ext hmod
        rw [hfin]
        exact congrArg some hget
    have hevset : (Finset.range ht.size ×ˢ Finset.range K).filter
        (fun p => dictGetRandomKey ht [p.1, p.2] = some e) =
      ((Finset.range ht.size).filter (fun r => r = h)) ×ˢ
        ((Finset.range K).filter
          (fun s => s % (ht.table.getD h []).length = j0)) := by
      rw [Finset.filter_congr hev]
      ext p
      simp only [Finset.mem_filter, Finset.mem_product]
      tauto
    have hsucc : ∀ p : Nat × Nat, p ∈ Finset.range ht.size ×ˢ Finset.range K →
        ((¬ dictGetRandomKey ht [p.1, p.2] = none) ↔
          ¬ ht.table.getD p.1 [] = []) := by
      intro p hp
      rw [Finset.mem_product, Finset.mem_range, Finset.mem_range] at hp
      rw [heval p.1 p.2 hp.1]
      by_cases hemp : (ht.table.getD p.1 []).isEmpty = true
      · rw [if_pos hemp]
        rw [List.isEmpty_iff] at hemp
        exact ⟨fun hc => absurd rfl hc, fun hc => absurd hemp hc⟩
      · rw [if_neg hemp]
        rw [List.isEmpty_iff] at hemp
        have hlp : 0 < (ht.table.getD p.1 []).length := List.length_pos.mpr hemp
        have hlt : p.2 % (ht.table.getD p.1 []).length <
            (ht.table.getD p.1 []).length := Nat.mod_lt _ hlp
        rw [List.get?_eq_get hlt]
        exact ⟨fun _ => hemp, fun _ hc => Option.noConfusion hc⟩
    have hsuccset : (Finset.range ht.size ×ˢ Finset.range K).filter
        (fun p => ¬ dictGetRandomKey ht [p.1, p.2] = none) =
      nonemptyBuckets ht ×ˢ Finset.range K := by
      rw [Finset.filter_congr hsucc]
      ext p
      simp only [Finset.mem_filter, Finset.mem_product, nonemptyBuckets, ne_eq]
      tauto
    obtain ⟨m, hmK⟩ := hK
    have hc1 : ((Finset.range ht.size).filter (fun r => r = h)).card = 1 := by
      rw [Finset.filter_eq', if_pos (Finset.mem_range.mpr hh)]
      rfl
    have hc2 : ((Finset.range K).filter
        (fun s => s % (ht.table.getD h []).length = j0)).card = m := by
      have hKm : K = m * (ht.table.getD h []).length := by rw [hmK]; ring
      rw [hKm]
      exact card_filter_mod _ j0 hj0 m
    rw [hevset, Finset.card_product, hc1, hc2, hsuccset, Finset.card_product,
      Finset.card_range]
    calc 1 * m * ((nonemptyBuckets ht).card * (ht.table.getD h []).length)
        = (nonemptyBuckets ht).card * ((ht.table.getD h []).length * m) := by ring
      _ = (nonemptyBuckets ht).card * K := by rw [← hmK]

/-- A concrete table for the C9 witness: one bucket with a single
entry, one bucket with a two-entry chain, two empty buckets. -/
def randTable : dict :=
  { table := [[⟨0, 1⟩], [⟨5, 50⟩, ⟨9, 90⟩], [], []],
    size := 4, sizemask := 3, used := 3 }

/-- C9, witness: on `randTable`, with draw range 4 (a multiple of the
chain length 2), the counting identity holds for the entry `⟨5, 50⟩`,
and draws hitting the empty buckets 2 and 3 are skipped. -/
theorem dictGetRandomKey_bucket_uniform_witness :
    (dictGetRandomKey randTable ([2, 7] ++ [1, 5]) =
      dictGetRandomKey randTable [1, 5]) ∧
    ((Finset.range randTable.size ×ˢ Finset.range 4).filter
        (fun p => dictGetRandomKey randTable [p.1, p.2] = some ⟨5, 50⟩)).card *
      ((nonemptyBuckets randTable).card *
        (randTable.table.getD 1 []).length) =
    ((Finset.range randTable.size ×ˢ Finset.range 4).filter
        (fun p => ¬ dictGetRandomKey randTable [p.1, p.2] = none)).card := by
  obtain ⟨hskip, hcard⟩ := dictGetRandomKey_bucket_uniform randTable 4 1 ⟨5, 50⟩
    (by decide) ⟨2, by decide⟩ (by decide) (by decide) (by decide) (by decide)
    (by decide) (by decide) (by decide)
  exact ⟨hskip [2, 7] [1, 5] (by decide), hcard⟩

/-!
### Event reactor (`ae.c` / `ae.h`)

Callbacks are C function pointers; here each event stores a callback
identifier (`Nat`), and an environment `Env` gives the semantics of
every identifier as a Lean function.  Callback semantics act on the
pair (event loop, clock cursor) — they may mutate the loop arbitrarily
and let time pass — but they cannot write the observation `log`, which
is instrumentation owned by the dispatcher: the dispatcher appends one
log entry at exactly each C call site of `fileProc`, `timeProc` and
`finalizerProc`.  `gettimeofday` is modelled as a stream of `Time`
samples (`Env.clock`), consumed one per `aeGetTime` call; `select`'s
readiness report is modelled by the `ready?` predicates. -/

def AE_READABLE : Nat := 1
def AE_WRITABLE : Nat := 2
def AE_EXCEPTION : Nat := 4
def AE_FILE_EVENTS : Nat := 1
def AE_TIME_EVENTS : Nat := 2
def AE_DONT_WAIT : Nat := 4
def AE_NOMORE : Int := -1

/-- A `(seconds, milliseconds)` instant, as `aeGetTime` reports it. -/
structure Time where
  sec : Nat
  ms : Nat
deriving DecidableEq, Repr

/-- The `aeFileEvent` struct: fd, interest mask, callback, optional
finalizer, client data.  List position models the `next` pointer
(head-insertion = `cons`). -/
structure aeFileEvent where
  fd : Nat
  mask : Nat
  fileProc : Nat
  finalizerProc : Option Nat
  clientData : Nat
deriving DecidableEq, Repr

/-- The `aeTimeEvent` struct: id, absolute fire time, callback,
optional finalizer, client data. -/
structure aeTimeEvent where
  id : Nat
  when_sec : Nat
  when_ms : Nat
  timeProc : Nat
  finalizerProc : Option Nat
  clientData : Nat
deriving DecidableEq, Repr

/-- The `aeEventLoop` struct. -/
structure aeEventLoop where
  timeEventNextId : Nat
  fileEventHead : List aeFileEvent
  timeEventHead : List aeTimeEvent
  stop : Bool
deriving DecidableEq, Repr

/-- One observable callback invocation, recorded by the dispatcher at
the corresponding C call site. -/
inductive Ev where
  | fileCb (fd mask : Nat)
  | fireTimer (id : Nat)
  | finalizeFile (fd mask : Nat)
  | finalizeTime (id : Nat)
deriving DecidableEq, Repr

/-- The reactor state threaded through a pass: the loop, the clock
cursor (index of the next `gettimeofday` sample), and the invocation
log. -/
structure World where
  loop : aeEventLoop
  tick : Nat
  log : List Ev
deriving DecidableEq, Repr

/-- The external environment: the clock sample stream, the semantics of
every callback identifier, and the readiness report of `select`. -/
structure Env where
  clock : Nat → Time
  timeProcSem : Nat → aeEventLoop × Nat → Nat → Nat → (aeEventLoop × Nat) × Int
  fileProcSem : Nat → aeEventLoop × Nat → Nat → Nat → Nat → aeEventLoop × Nat
  finalizerSem : Nat → aeEventLoop × Nat → Nat → aeEventLoop × Nat
  readyR : Nat → Bool
  readyW : Nat → Bool
  readyE : Nat → Bool

/-- `aeCreateEventLoop`: empty loop, next timer id 0, stop flag clear. -/
def aeCreateEventLoop : aeEventLoop :=
  { timeEventNextId := 0, fileEventHead := [], timeEventHead := [], stop := false }

/-- `aeGetTime`: read the next `gettimeofday` sample. -/
def aeGetTime (env : Env) (w : World) : World × Time :=
  ({ w with tick := w.tick + 1 }, env.clock w.tick)

/-- The arithmetic of `aeAddMillisecondsToNow`: add the delay to a
current time, carrying milliseconds into seconds at the 1000ms
boundary (a single carry suffices, as in the C code). -/
def addMsTime (milliseconds : Nat) (cur : Time) : Time :=
  if cur.ms + milliseconds % 1000 ≥ 1000 then
    { sec := cur.sec + milliseconds / 1000 + 1
      ms := cur.ms + milliseconds % 1000 - 1000 }
  else
    { sec := cur.sec + milliseconds / 1000
      ms := cur.ms + milliseconds % 1000 }

/-- `aeAddMillisecondsToNow`: sample the clock, then add the delay.
The C parameter is a `long long`; the reactor's contract only ever
passes non-negative delays here, so the model takes a `Nat`. -/
def aeAddMillisecondsToNow (env : Env) (milliseconds : Nat) (w : World) :
    World × Time :=
  let p := aeGetTime env w
  (p.1, addMsTime milliseconds p.2)

/-- `aeCreateFileEvent`: head-insert a new file event.  Allocation
cannot fail in the model, so the `AE_ERR` branch is unreachable. -/
def aeCreateFileEvent (w : World) (fd mask proc : Nat) (clientData : Nat)
    (fin : Option Nat) : World × Bool :=
  ({ w with loop := { w.loop with fileEventHead :=
      { fd := fd, mask := mask, fileProc := proc, finalizerProc := fin,
        clientData := clientData } :: w.loop.fileEventHead } }, true)

/-- `aeCreateTimeEvent`: take the next id (incrementing the counter
first, as `timeEventNextId++` does), compute the fire time as
now + delay, head-insert, and return the id. -/
def aeCreateTimeEvent (env : Env) (w : World) (milliseconds : Nat)
    (proc : Nat) (clientData : Nat) (fin : Option Nat) : World × Nat :=
  let id := w.loop.timeEventNextId
  let w1 : World := { w with loop := { w.loop with timeEventNextId := id + 1 } }
  let p := aeAddMillisecondsToNow env milliseconds w1
  ({ p.1 with loop := { p.1.loop with timeEventHead :=
      { id := id, when_sec := p.2.sec, when_ms := p.2.ms, timeProc := proc,
        finalizerProc := fin, clientData := clientData } ::
        p.1.loop.timeEventHead } }, id)

/-- The unlink scan of `aeDeleteTimeEvent`: the removed node and the
remaining list, or `none` when no node carries the id. -/
def removeFirstTimeEvent (id : Nat) :
    List aeTimeEvent → Option (aeTimeEvent × List aeTimeEvent)
  | [] => none
  | te :: rest =>
    if te.id = id then some (te, rest)
    else (removeFirstTimeEvent id rest).map (fun p => (p.1, te :: p.2))

/-- `aeDeleteTimeEvent`: unlink the first matching timer, then invoke
its finalizer (if any) on the already-unlinked loop, logging the
invocation; `false` models `AE_ERR` (no event with that id). -/
def aeDeleteTimeEvent (env : Env) (w : World) (id : Nat) : World × Bool :=
  match removeFirstTimeEvent id w.loop.timeEventHead with
  | none => (w, false)
  | some (te, rest) =>
    match te.finalizerProc with
    | none => ({ w with loop := { w.loop with timeEventHead := rest } }, true)
    | some f =>
      let p := env.finalizerSem f ({ w.loop with timeEventHead := rest }, w.tick)
        te.clientData
      ({ loop := p.1, tick := p.2, log := w.log ++ [Ev.finalizeTime te.id] }, true)

/-- Strict "fires earlier" comparison used by `aeSearchNearestTimer`. -/
def timerEarlier (a b : aeTimeEvent) : Bool :=
  Nat.blt a.when_sec b.when_sec ||
    (Nat.beq a.when_sec b.when_sec && Nat.blt a.when_ms b.when_ms)

/-- `aeSearchNearestTimer`: linear scan of the unordered timer list for
the earliest fire time (the first such timer on ties). -/
def aeSearchNearestTimer (loop : aeEventLoop) : Option aeTimeEvent :=
  loop.timeEventHead.foldl
    (fun nearest te =>
      match nearest with
      | none => some te
      | some n => if timerEarlier te n then some te else some n)
    none

/-- `FD_SET`: a set-insert on the modelled descriptor set. -/
def fdSet (fd : Nat) (s : List Nat) : List Nat :=
  if fd ∈ s then s else fd :: s

/-- `FD_CLR`: remove a descriptor from the modelled set. -/
def fdClr (fd : Nat) (s : List Nat) : List Nat :=
  s.filter (fun x => x != fd)

/-- The interest-set building loop of `aeProcessEvents`: walk the file
event list, `FD_SET`ting each fd into the sets its mask selects, and
track the maximum fd and the number of file events. -/
def buildFdSets : List aeFileEvent →
    List Nat × List Nat × List Nat × Nat × Nat →
    List Nat × List Nat × List Nat × Nat × Nat
  | [], acc => acc
  | fe :: rest, (rfds, wfds, efds, maxfd, numfd) =>
    buildFdSets rest
      (if fe.mask &&& AE_READABLE ≠ 0 then fdSet fe.fd rfds else rfds,
       if fe.mask &&& AE_WRITABLE ≠ 0 then fdSet fe.fd wfds else wfds,
       if fe.mask &&& AE_EXCEPTION ≠ 0 then fdSet fe.fd efds else efds,
       max maxfd fe.fd, numfd + 1)

/-- The ready mask computed for a dispatched file event: the subset of
its interest mask that `select` reported ready. -/
def readyMask (fe : aeFileEvent) (rfds wfds efds : List Nat) : Nat :=
  (if fe.mask &&& AE_READABLE ≠ 0 ∧ fe.fd ∈ rfds then AE_READABLE else 0) |||
  (if fe.mask &&& AE_WRITABLE ≠ 0 ∧ fe.fd ∈ wfds then AE_WRITABLE else 0) |||
  (if fe.mask &&& AE_EXCEPTION ≠ 0 ∧ fe.fd ∈ efds then AE_EXCEPTION else 0)

/-- Invoke `fe->fileProc(eventLoop, fe->fd, fe->clientData, mask)`,
logging the invocation. -/
def invokeFileProc (env : Env) (w : World) (fe : aeFileEvent) (mask : Nat) :
    World :=
  let p := env.fileProcSem fe.fileProc (w.loop, w.tick) fe.fd fe.clientData mask
  { loop := p.1, tick := p.2, log := w.log ++ [Ev.fileCb fe.fd mask] }

/-- The file-event dispatch loop of `aeProcessEvents`: scan the event
list; on a ready match invoke the callback, count it, clear the fd from
all three sets and restart from the (possibly changed) list head;
otherwise advance.  The explicit fuel stands in for the C `while`; the
C loop terminates because every dispatch clears one fd from the ready
sets, and every claim below holds for all sufficiently large fuel. -/
def fileDispatch (env : Env) : Nat → World → List Nat → List Nat → List Nat →
    List aeFileEvent → Nat → World × Nat
  | 0, w, _, _, _, _, processed => (w, processed)
  | _ + 1, w, _, _, _, [], processed => (w, processed)
  | fuel + 1, w, rfds, wfds, efds, fe :: rest, processed =>
    if (fe.mask &&& AE_READABLE ≠ 0 ∧ fe.fd ∈ rfds) ∨
       (fe.mask &&& AE_WRITABLE ≠ 0 ∧ fe.fd ∈ wfds) ∨
       (fe.mask &&& AE_EXCEPTION ≠ 0 ∧ fe.fd ∈ efds) then
      let w1 := invokeFileProc env w fe (readyMask fe rfds wfds efds)
      fileDispatch env fuel w1 (fdClr fe.fd rfds) (fdClr fe.fd wfds)
        (fdClr fe.fd efds) w1.loop.fileEventHead (processed + 1)
    else
      fileDispatch env fuel w rfds wfds efds rest processed

/-- The due test of the time-event loop: `now_sec > when_sec ||
(now_sec == when_sec && now_ms >= when_ms)`. -/
def timeDue (now : Time) (te : aeTimeEvent) : Bool :=
  Nat.blt te.when_sec now.sec ||
    (Nat.beq now.sec te.when_sec && Nat.ble te.when_ms now.ms)

/-- Invoke `te->timeProc(eventLoop, id, te->clientData)`, logging the
firing and returning the callback's retval. -/
def invokeTimeProc (env : Env) (w : World) (te : aeTimeEvent) : World × Int :=
  let p := env.timeProcSem te.timeProc (w.loop, w.tick) te.id te.clientData
  ({ loop := p.1.1, tick := p.1.2, log := w.log ++ [Ev.fireTimer te.id] }, p.2)

/-- The C code reschedules by writing `te->when_sec`/`te->when_ms`
through the node pointer; in the list model this is an update of the
first node carrying the fired timer's id (the only one, in loops built
through the API, where ids are unique). -/
def updateTimerWhen (id : Nat) (when : Time) :
    List aeTimeEvent → List aeTimeEvent
  | [] => []
  | te :: rest =>
    if te.id = id then
      { te with when_sec := when.sec, when_ms := when.ms } :: rest
    else te :: updateTimerWhen id when rest

/-- The time-event dispatch loop of `aeProcessEvents`: walk the timer
list, skipping timers created after the `maxId` snapshot; when a timer
is due, fire it, then either reschedule it to now + retval (a fresh
`aeGetTime` sample — after the callback ran) or, on `AE_NOMORE`, delete
and finalize it; after a firing, restart from the (possibly changed)
list head.  Fuel stands in for the C `while`; a pass that keeps
re-firing a zero-delay timer does not terminate in C either until the
clock advances, and every claim below holds for all sufficiently large
fuel. -/
def timeDispatch (env : Env) (maxId : Int) : Nat → World → List aeTimeEvent →
    World
  | 0, w, _ => w
  | _ + 1, w, [] => w
  | fuel + 1, w, te :: rest =>
    if (te.id : Int) > maxId then timeDispatch env maxId fuel w rest
    else
      let p := aeGetTime env w
      if timeDue p.2 te then
        let q := invokeTimeProc env p.1 te
        if q.2 ≠ AE_NOMORE then
          let r := aeAddMillisecondsToNow env q.2.toNat q.1
          let w4 : World := { r.1 with loop := { r.1.loop with
            timeEventHead := updateTimerWhen te.id r.2 r.1.loop.timeEventHead } }
          timeDispatch env maxId fuel w4 w4.loop.timeEventHead
        else
          let w3 := (aeDeleteTimeEvent env q.1 te.id).1
          timeDispatch env maxId fuel w3 w3.loop.timeEventHead
      else
        timeDispatch env maxId fuel p.1 rest

/-- The sleep preparation of `aeProcessEvents`: when time events are
processed and waiting is allowed, search the nearest timer and — when
one exists — sample the clock to compute the `select` timeout. -/
def selectWait (env : Env) (w : World) (flags : Nat) : World :=
  if flags &&& AE_TIME_EVENTS ≠ 0 ∧ flags &&& AE_DONT_WAIT = 0 then
    match aeSearchNearestTimer w.loop with
    | some _ => (aeGetTime env w).1
    | none => w
  else w

/-- The `select` call and the ensuing dispatch: `select` keeps exactly
the ready descriptors in the three sets and returns the number of set
bits; when positive, the file-event dispatch loop runs from the list
head. -/
def selectDispatch (env : Env) (w : World) (fuel : Nat)
    (rsel wsel esel : List Nat) : World × Nat :=
  if rsel.length + wsel.length + esel.length > 0 then
    fileDispatch env fuel w rsel wsel esel w.loop.fileEventHead 0
  else (w, 0)

/-- The body under `if (numfd || ...)` of `aeProcessEvents`. -/
def filePhaseCore (env : Env) (w : World) (flags fuel : Nat) :
    List Nat × List Nat × List Nat × Nat × Nat → World × Nat
  | (rfds, wfds, efds, _, numfd) =>
    if numfd ≠ 0 ∨ (flags &&& AE_TIME_EVENTS ≠ 0 ∧ flags &&& AE_DONT_WAIT = 0) then
      selectDispatch env (selectWait env w flags) fuel
        (rfds.filter env.readyR) (wfds.filter env.readyW)
        (efds.filter env.readyE)
    else (w, 0)

/-- The file half of one `aeProcessEvents` pass: build the interest
sets when file events are requested, then wait and dispatch. -/
def filePhase (env : Env) (w : World) (flags fuel : Nat) : World × Nat :=
  if flags &&& AE_FILE_EVENTS ≠ 0 then
    filePhaseCore env w flags fuel (buildFdSets w.loop.fileEventHead ([], [], [], 0, 0))
  else
    filePhaseCore env w flags fuel ([], [], [], 0, 0)

/-- The time half of one pass: snapshot `maxId = timeEventNextId - 1`,
then run the timer dispatch loop. -/
def timePhase (env : Env) (w : World) (flags fuel : Nat) : World :=
  if flags &&& AE_TIME_EVENTS ≠ 0 then
    timeDispatch env ((w.loop.timeEventNextId : Int) - 1) fuel w
      w.loop.timeEventHead
  else w

/-- `aeProcessEvents`: nothing to do when neither event kind is
requested; otherwise the file phase followed by the time phase.
Returns the count of processed events (incremented only in the
file-dispatch loop, as in this version of the C code). -/
def aeProcessEvents (env : Env) (w : World) (flags fuel : Nat) : World × Nat :=
  if flags &&& AE_TIME_EVENTS = 0 ∧ flags &&& AE_FILE_EVENTS = 0 then (w, 0)
  else
    let p := filePhase env w flags fuel
    (timePhase env p.1 flags fuel, p.2)

/-- C5: a timer whose callback returns a positive delay `d` is
rescheduled to fire at (actual fire time) + `d`: the new `when` is
computed by `aeAddMillisecondsToNow` from a clock sample taken after
the callback ran, not from the originally scheduled fire time.  The
callback is modelled as acting on the loop and the clock cursor
(`timeProcSem`), and the timer list holds this single timer. -/
theorem timer_reschedule_from_actual_fire_time
    (env : Env) (w : World) (te : aeTimeEvent) (d : Int) (k : Nat)
    (hhead : w.loop.timeEventHead = [te])
    (hid : te.id < w.loop.timeEventNextId)
    (hsem : ∀ p cd, env.timeProcSem te.timeProc p te.id cd = (p, d))
    (hd : 0 < d)
    (hdue : timeDue (env.clock w.tick) te = true)
    (hnotdue : timeDue (env.clock (w.tick + 2))
      { te with when_sec := (addMsTime d.toNat (env.clock (w.tick + 1))).sec,
                when_ms := (addMsTime d.toNat (env.clock (w.tick + 1))).ms } = false) :
    (aeProcessEvents env w (AE_TIME_EVENTS ||| AE_DONT_WAIT) (k + 3)).1.loop.timeEventHead =
      [{ te with when_sec := (addMsTime d.toNat (env.clock (w.tick + 1))).sec,
                 when_ms := (addMsTime d.toNat (env.clock (w.tick + 1))).ms }] ∧
    (aeProcessEvents env w (AE_TIME_EVENTS ||| AE_DONT_WAIT) (k + 3)).1.log =
      w.log ++ [Ev.fireTimer te.id] := by
  have hfile : filePhase env w (AE_TIME_EVENTS ||| AE_DONT_WAIT) (k + 3) = (w, 0) := by
    rw [filePhase, if_neg (by decide)]
    rw [filePhaseCore, if_neg (by decide)]
  have hproc : aeProcessEvents env w (AE_TIME_EVENTS ||| AE_DONT_WAIT) (k + 3) =
      (timePhase env w (AE_TIME_EVENTS ||| AE_DONT_WAIT) (k + 3), 0) := by
    rw [aeProcessEvents, if_neg (by decide), hfile]
  have hidle : ¬ ((te.id : Int) > (w.loop.timeEventNextId : Int) - 1) := by
    omega
  have hne : d ≠ AE_NOMORE := by
    rw [AE_NOMORE]
    omega
  have hnotdue2 : timeDue (env.clock (w.tick + 1 + 1))
      { te with when_sec := (addMsTime d.toNat (env.clock (w.tick + 1))).sec,
                when_ms := (addMsTime d.toNat (env.clock (w.tick + 1))).ms } = false :=
    hnotdue
  have hrun : timeDispatch env ((w.loop.timeEventNextId : Int) - 1) (k + 3) w [te] =
      { loop := { w.loop with timeEventHead :=
          [{ te with when_sec := (addMsTime d.toNat (env.clock (w.tick + 1))).sec,
                     when_ms := (addMsTime d.toNat (env.clock (w.tick + 1))).ms }] },
        tick := w.tick + 1 + 1 + 1,
        log := w.log ++ [Ev.fireTimer te.id] } := by
    simp [timeDispatch, hidle, aeGetTime, hdue, invokeTimeProc, hsem, hne,
      aeAddMillisecondsToNow, updateTimerWhen, hhead, hnotdue2]
  rw [hproc]
  rw [timePhase, if_pos (by decide), hhead, hrun]
  exact ⟨rfl, rfl⟩

/-- Witness scenario for C5: a timer due at (0s,100ms), a constant
clock stuck at (0s,100ms), a callback returning 50. -/
def te50 : aeTimeEvent :=
  { id := 0, when_sec := 0, when_ms := 100, timeProc := 0,
    finalizerProc := none, clientData := 0 }

/-- The worlds the C5 witness starts from: the single timer `te50`. -/
def w50 : World :=
  { loop :=
      { timeEventNextId := 1
        fileEventHead := []
        timeEventHead := [te50]
        stop := false }
    tick := 0
    log := [] }

/-- Environment for the C5 witness: every `gettimeofday` reads
(0s,100ms), the timer callback returns 50. -/
def env50 : Env :=
  { clock := fun _ => { sec := 0, ms := 100 },
    timeProcSem := fun _ p _ _ => (p, 50),
    fileProcSem := fun _ p _ _ _ => p,
    finalizerSem := fun _ p _ => p,
    readyR := fun _ => false, readyW := fun _ => false, readyE := fun _ => false }

/-- C5, witness: the timer due at 100ms whose callback returns 50 is
rescheduled to 150ms = (actual fire time 100ms) + 50, not 200ms. -/
theorem timer_reschedule_from_actual_fire_time_witness :
    (aeProcessEvents env50 w50 (AE_TIME_EVENTS ||| AE_DONT_WAIT) 3).1.loop.timeEventHead =
      [{ id := 0, when_sec := 0, when_ms := 150, timeProc := 0,
         finalizerProc := none, clientData := 0 }] ∧
    (aeProcessEvents env50 w50 (AE_TIME_EVENTS ||| AE_DONT_WAIT) 3).1.log =
      [Ev.fireTimer 0] := by
  have h := timer_reschedule_from_actual_fire_time env50 w50 te50 50 0
    rfl (by decide) (fun p cd => rfl) (by decide) (by decide) (by decide)
  exact ⟨h.1.trans (by decide), h.2.trans (by decide)⟩

/-- C7: two file events on distinct fds, both interested in reads and
both reported ready, with callbacks that leave the event list alone
(they may use the loop and clock, but return the loop unchanged): each
callback runs exactly once — the log gains exactly one `fileCb` entry
per fd — and the returned processed count is 2.  The `FD_CLR` after
each dispatch is what prevents a redispatch when the scan restarts
from the list head. -/
theorem two_ready_fds_each_dispatched_once
    (env : Env) (w : World) (fe1 fe2 : aeFileEvent) (k : Nat)
    (hhead : w.loop.fileEventHead = [fe1, fe2])
    (hne : fe1.fd ≠ fe2.fd)
    (hm1 : fe1.mask = AE_READABLE) (hm2 : fe2.mask = AE_READABLE)
    (hr1 : env.readyR fe1.fd = true) (hr2 : env.readyR fe2.fd = true)
    (hb1 : ∀ p fd cd m, (env.fileProcSem fe1.fileProc p fd cd m).1 = p.1)
    (hb2 : ∀ p fd cd m, (env.fileProcSem fe2.fileProc p fd cd m).1 = p.1) :
    (aeProcessEvents env w AE_FILE_EVENTS (k + 6)).2 = 2 ∧
    (aeProcessEvents env w AE_FILE_EVENTS (k + 6)).1.log =
      w.log ++ [Ev.fileCb fe1.fd AE_READABLE, Ev.fileCb fe2.fd AE_READABLE] := by
  have hne2 : ¬ fe1.fd = fe2.fd := hne
  have hne3 : ¬ fe2.fd = fe1.fd := fun h => hne h.symm
  have hq1 : (fe1.fd == fe2.fd) = false := by simp [hne2]
  have hq2 : (fe2.fd == fe1.fd) = false := by simp [hne3]
  have hq3 : (fe1.fd != fe2.fd) = true := by simp [hne2]
  have hq4 : (fe2.fd != fe1.fd) = true := by simp [hne3]
  have hbuild : buildFdSets [fe1, fe2] ([], [], [], 0, 0) =
      ([fe2.fd, fe1.fd], [], [], max (max 0 fe1.fd) fe2.fd, 2) := by
    simp [buildFdSets, fdSet, hm1, hm2, hne3, hq2, AE_READABLE, AE_WRITABLE, AE_EXCEPTION]
  have hdisp : fileDispatch env (k + 6) w [fe2.fd, fe1.fd] [] [] [fe1, fe2] 0 =
      ({ loop := w.loop, tick := (env.fileProcSem fe2.fileProc
          (w.loop, (env.fileProcSem fe1.fileProc (w.loop, w.tick) fe1.fd
            fe1.clientData AE_READABLE).2) fe2.fd fe2.clientData
            AE_READABLE).2,
         log := w.log ++ [Ev.fileCb fe1.fd AE_READABLE, Ev.fileCb fe2.fd AE_READABLE] }, 2) := by
    simp [fileDispatch, invokeFileProc, hb1, hb2, hhead, fdClr, readyMask,
      hm1, hm2, hne2, hne3, hq1, hq2, hq3, hq4, List.filter,
      AE_READABLE, AE_WRITABLE, AE_EXCEPTION]
  have hwait : selectWait env w AE_FILE_EVENTS = w := by
    rw [selectWait, if_neg (by decide)]
  have hsel : [fe2.fd, fe1.fd].filter env.readyR = [fe2.fd, fe1.fd] := by
    simp [List.filter, hr1, hr2]
  have hfp : filePhase env w AE_FILE_EVENTS (k + 6) =
      ({ loop := w.loop, tick := (env.fileProcSem fe2.fileProc
          (w.loop, (env.fileProcSem fe1.fileProc (w.loop, w.tick) fe1.fd
            fe1.clientData AE_READABLE).2) fe2.fd fe2.clientData
            AE_READABLE).2,
         log := w.log ++ [Ev.fileCb fe1.fd AE_READABLE, Ev.fileCb fe2.fd AE_READABLE] }, 2) := by
    rw [filePhase, if_pos (by decide), hhead, hbuild, filePhaseCore,
      if_pos (Or.inl (by decide)), hwait, selectDispatch, hsel]
    simp only [List.filter_nil]
    rw [if_pos (by simp), hhead, hdisp]
  have hproc : aeProcessEvents env w AE_FILE_EVENTS (k + 6) =
      (timePhase env (filePhase env w AE_FILE_EVENTS (k + 6)).1 AE_FILE_EVENTS (k + 6),
        (filePhase env w AE_FILE_EVENTS (k + 6)).2) := by
    rw [aeProcessEvents, if_neg (by decide)]
  rw [hproc, timePhase, if_neg (by decide), hfp]
  exact ⟨rfl, rfl⟩

/-- First file event for the C7 witness: fd 10, read interest. -/
def fe71 : aeFileEvent :=
  { fd := 10, mask := AE_READABLE, fileProc := 0, finalizerProc := none,
    clientData := 0 }

/-- Second file event for the C7 witness: fd 20, read interest. -/
def fe72 : aeFileEvent :=
  { fd := 20, mask := AE_READABLE, fileProc := 1, finalizerProc := none,
    clientData := 0 }

/-- The world the C7 witness starts from: the two file events. -/
def w70 : World :=
  { loop :=
      { timeEventNextId := 0
        fileEventHead := [fe71, fe72]
        timeEventHead := []
        stop := false }
    tick := 0
    log := [] }

/-- Environment for the C7 witness: every fd reports read-ready, file
callbacks leave the loop unchanged. -/
def env70 : Env :=
  { clock := fun _ => { sec := 0, ms := 0 },
    timeProcSem := fun _ p _ _ => (p, 0),
    fileProcSem := fun _ p _ _ _ => p,
    finalizerSem := fun _ p _ => p,
    readyR := fun _ => true, readyW := fun _ => false, readyE := fun _ => false }

/-- C7, witness: fds 10 and 20 both ready; one callback invocation is
logged per fd and the processed count is 2. -/
theorem two_ready_fds_each_dispatched_once_witness :
    (aeProcessEvents env70 w70 AE_FILE_EVENTS 6).2 = 2 ∧
    (aeProcessEvents env70 w70 AE_FILE_EVENTS 6).1.log =
      [Ev.fileCb 10 AE_READABLE, Ev.fileCb 20 AE_READABLE] := by
  have h := two_ready_fds_each_dispatched_once env70 w70 fe71 fe72 0
    rfl (by decide) rfl rfl rfl rfl
    (fun p fd cd m => rfl) (fun p fd cd m => rfl)
  exact ⟨h.1, h.2.trans (by decide)⟩

/-- C8: a due timer whose callback returns `AE_NOMORE` is unlinked in
the same dispatch pass, its configured finalizer runs exactly once
(the log gains exactly one `finalizeTime` entry, right after the one
`fireTimer` entry), and a subsequent `aeDeleteTimeEvent` on its id
fails (returns the `AE_ERR` flag) because the timer is already gone. -/
theorem nomore_timer_removed_finalized_once
    (env : Env) (w : World) (te : aeTimeEvent) (f : Nat) (k : Nat)
    (hhead : w.loop.timeEventHead = [te])
    (hid : te.id < w.loop.timeEventNextId)
    (hfin : te.finalizerProc = some f)
    (hsem : ∀ p cd, env.timeProcSem te.timeProc p te.id cd = (p, AE_NOMORE))
    (hfsem : ∀ p cd, env.finalizerSem f p cd = p)
    (hdue : timeDue (env.clock w.tick) te = true) :
    (aeProcessEvents env w (AE_TIME_EVENTS ||| AE_DONT_WAIT) (k + 2)).1.loop.timeEventHead = [] ∧
    (aeProcessEvents env w (AE_TIME_EVENTS ||| AE_DONT_WAIT) (k + 2)).1.log =
      w.log ++ [Ev.fireTimer te.id, Ev.finalizeTime te.id] ∧
    aeDeleteTimeEvent env (aeProcessEvents env w (AE_TIME_EVENTS ||| AE_DONT_WAIT) (k + 2)).1 te.id =
      ((aeProcessEvents env w (AE_TIME_EVENTS ||| AE_DONT_WAIT) (k + 2)).1, false) := by
  have hfile : filePhase env w (AE_TIME_EVENTS ||| AE_DONT_WAIT) (k + 2) = (w, 0) := by
    rw [filePhase, if_neg (by decide)]
    rw [filePhaseCore, if_neg (by decide)]
  have hproc : aeProcessEvents env w (AE_TIME_EVENTS ||| AE_DONT_WAIT) (k + 2) =
      (timePhase env w (AE_TIME_EVENTS ||| AE_DONT_WAIT) (k + 2), 0) := by
    rw [aeProcessEvents, if_neg (by decide), hfile]
  have hidle : ¬ ((te.id : Int) > (w.loop.timeEventNextId : Int) - 1) := by
    omega
  have hrun : timeDispatch env ((w.loop.timeEventNextId : Int) - 1) (k + 2) w [te] =
      { loop := { w.loop with timeEventHead := [] },
        tick := w.tick + 1,
        log := w.log ++ [Ev.fireTimer te.id, Ev.finalizeTime te.id] } := by
    simp [timeDispatch, hidle, aeGetTime, hdue, invokeTimeProc, hsem,
      aeDeleteTimeEvent, removeFirstTimeEvent, hhead, hfin, hfsem]
  rw [hproc, timePhase, if_pos (by decide), hhead, hrun]
  refine ⟨rfl, rfl, ?_⟩
  rw [aeDeleteTimeEvent]
  simp [removeFirstTimeEvent]

/-- One-shot timer for the C8 witness: finalizer configured. -/
def te80 : aeTimeEvent :=
  { id := 0, when_sec := 0, when_ms := 100, timeProc := 0,
    finalizerProc := some 3, clientData := 0 }

/-- The world the C8 witness starts from: the single timer `te80`. -/
def w80 : World :=
  { loop :=
      { timeEventNextId := 1
        fileEventHead := []
        timeEventHead := [te80]
        stop := false }
    tick := 0
    log := [] }

/-- Environment for the C8 witness: the timer callback returns
`AE_NOMORE`, the finalizer leaves the loop unchanged. -/
def env80 : Env :=
  { clock := fun _ => { sec := 0, ms := 100 },
    timeProcSem := fun _ p _ _ => (p, AE_NOMORE),
    fileProcSem := fun _ p _ _ _ => p,
    finalizerSem := fun _ p _ => p,
    readyR := fun _ => false, readyW := fun _ => false, readyE := fun _ => false }

/-- C8, witness: the one-shot timer fires once, is finalized once, the
timer list ends empty, and deleting id 0 afterwards fails. -/
theorem nomore_timer_removed_finalized_once_witness :
    (aeProcessEvents env80 w80 (AE_TIME_EVENTS ||| AE_DONT_WAIT) 2).1.loop.timeEventHead = [] ∧
    (aeProcessEvents env80 w80 (AE_TIME_EVENTS ||| AE_DONT_WAIT) 2).1.log =
      [Ev.fireTimer 0, Ev.finalizeTime 0] ∧
    aeDeleteTimeEvent env80 (aeProcessEvents env80 w80 (AE_TIME_EVENTS ||| AE_DONT_WAIT) 2).1 0 =
      ((aeProcessEvents env80 w80 (AE_TIME_EVENTS ||| AE_DONT_WAIT) 2).1, false) := by
  have h := nomore_timer_removed_finalized_once env80 w80 te80 3 0
    rfl (by decide) rfl (fun p cd => rfl) (fun p cd => rfl) (by decide)
  exact ⟨h.1, h.2.1.trans (by decide), h.2.2⟩

/-- Finalizers act on the loop and clock only, so `aeDeleteTimeEvent`
never adds a `fireTimer` entry to the log. -/
theorem aeDeleteTimeEvent_log_fire (env : Env) (w : World) (j id : Nat)
    (h : Ev.fireTimer id ∈ (aeDeleteTimeEvent env w j).1.log) :
    Ev.fireTimer id ∈ w.log := by
  rw [aeDeleteTimeEvent] at h
  split at h
  · exact h
  · split at h
    · exact h
    · simp only [List.mem_append, List.mem_singleton] at h
      rcases h with h | h
      · exact h
      · exact absurd h (by simp)

/-- Every `fireTimer` entry the time-event dispatch loop adds carries
an id at most `maxId`: the `id > maxId` skip guard runs before the due
test, so a timer past the snapshot is never invoked, whatever its fire
time and whatever timers the callbacks themselves create. -/
theorem timeDispatch_fire_bound (env : Env) (maxId : Int) (id : Nat) :
    ∀ fuel (w : World) (tes : List aeTimeEvent),
      Ev.fireTimer id ∈ (timeDispatch env maxId fuel w tes).log →
      Ev.fireTimer id ∈ w.log ∨ (id : Int) ≤ maxId := by
  intro fuel
  induction fuel with
  | zero =>
    intro w tes h
    rw [timeDispatch] at h
    exact Or.inl h
  | succ fuel ih =>
    intro w tes h
    cases tes with
    | nil =>
      rw [timeDispatch] at h
      exact Or.inl h
    | cons te rest =>
      rw [timeDispatch] at h
      by_cases h1 : (te.id : Int) > maxId
      · rw [if_pos h1] at h
        exact ih w rest h
      · rw [if_neg h1] at h
        simp only [aeGetTime] at h
        by_cases h2 : timeDue (env.clock w.tick) te = true
        · rw [if_pos h2] at h
          simp only [invokeTimeProc] at h
          by_cases h3 : (env.timeProcSem te.timeProc ({ w with tick := w.tick + 1 }.loop,
              { w with tick := w.tick + 1 }.tick) te.id te.clientData).2 ≠ AE_NOMORE
          · rw [if_pos h3] at h
            simp only [aeAddMillisecondsToNow, aeGetTime] at h
            rcases ih _ _ h with hw | hle
            · simp only [List.mem_append, List.mem_singleton] at hw
              rcases hw with hw | hw
              · exact Or.inl hw
              · simp only [Ev.fireTimer.injEq] at hw
                subst hw
                exact Or.inr (by omega)
            · exact Or.inr hle
          · rw [if_neg h3] at h
            rcases ih _ _ h with hw | hle
            · have hw2 := aeDeleteTimeEvent_log_fire env _ te.id id hw
              simp only [List.mem_append, List.mem_singleton] at hw2
              rcases hw2 with hw2 | hw2
              · exact Or.inl hw2
              · simp only [Ev.fireTimer.injEq] at hw2
                subst hw2
                exact Or.inr (by omega)
            · exact Or.inr hle
        · rw [if_neg h2] at h
          rcases ih _ rest h with hw | hle
          · exact Or.inl hw
          · exact Or.inr hle

/-- The file-event dispatch loop only logs `fileCb` entries: it never
adds a `fireTimer` entry. -/
theorem fileDispatch_log_fire (env : Env) (id : Nat) :
    ∀ fuel (w : World) (rfds wfds efds : List Nat) (fes : List aeFileEvent)
      (processed : Nat),
      Ev.fireTimer id ∈ (fileDispatch env fuel w rfds wfds efds fes processed).1.log →
      Ev.fireTimer id ∈ w.log := by
  intro fuel
  induction fuel with
  | zero =>
    intro w r wf e fes pr h
    rw [fileDispatch] at h
    exact h
  | succ fuel ih =>
    intro w r wf e fes pr h
    cases fes with
    | nil =>
      rw [fileDispatch] at h
      exact h
    | cons fe rest =>
      rw [fileDispatch] at h
      by_cases hc : (fe.mask &&& AE_READABLE ≠ 0 ∧ fe.fd ∈ r) ∨
          (fe.mask &&& AE_WRITABLE ≠ 0 ∧ fe.fd ∈ wf) ∨
          (fe.mask &&& AE_EXCEPTION ≠ 0 ∧ fe.fd ∈ e)
      · rw [if_pos hc] at h
        simp only [invokeFileProc] at h
        have hw := ih _ _ _ _ _ _ h
        simp only [List.mem_append, List.mem_singleton] at hw
        rcases hw with hw | hw
        · exact hw
        · exact absurd hw (by simp)
      · rw [if_neg hc] at h
        exact ih _ _ _ _ _ _ h

/-- The sleep preparation only samples the clock: the log is
untouched. -/
theorem selectWait_log (env : Env) (w : World) (flags : Nat) :
    (selectWait env w flags).log = w.log := by
  rw [selectWait]
  split
  · split
    · rfl
    · rfl
  · rfl

/-- The select-and-dispatch body never adds a `fireTimer` entry. -/
theorem filePhaseCore_log_fire (env : Env) (w : World) (flags fuel : Nat)
    (acc : List Nat × List Nat × List Nat × Nat × Nat) (id : Nat)
    (h : Ev.fireTimer id ∈ (filePhaseCore env w flags fuel acc).1.log) :
    Ev.fireTimer id ∈ w.log := by
  obtain ⟨r, wf, e, m, n⟩ := acc
  rw [filePhaseCore] at h
  split at h
  · rw [selectDispatch] at h
    split at h
    · have hw := fileDispatch_log_fire env id fuel _ _ _ _ _ _ h
      rw [selectWait_log] at hw
      exact hw
    · have hw : Ev.fireTimer id ∈ (selectWait env w flags).log := h
      rw [selectWait_log] at hw
      exact hw
  · exact h

/-- The file half of a pass never adds a `fireTimer` entry. -/
theorem filePhase_log_fire (env : Env) (w : World) (flags fuel : Nat) (id : Nat)
    (h : Ev.fireTimer id ∈ (filePhase env w flags fuel).1.log) :
    Ev.fireTimer id ∈ w.log := by
  rw [filePhase] at h
  split at h
  · exact filePhaseCore_log_fire env w flags fuel _ id h
  · exact filePhaseCore_log_fire env w flags fuel _ id h

/-- C6: within one `aeProcessEvents` pass, every timer callback that
runs belongs to a timer whose id is at most the snapshot
`timeEventNextId - 1` taken when time-event dispatch starts (after the
file phase).  A timer created inside a callback of the same pass gets
an id strictly above the snapshot, so its callback is never invoked in
that pass, regardless of its fire time. -/
theorem processEvents_no_new_timer_fired
    (env : Env) (w : World) (flags fuel : Nat) (id : Nat)
    (h : Ev.fireTimer id ∈ (aeProcessEvents env w flags fuel).1.log) :
    Ev.fireTimer id ∈ w.log ∨
      (id : Int) ≤ ((filePhase env w flags fuel).1.loop.timeEventNextId : Int) - 1 := by
  rw [aeProcessEvents] at h
  split at h
  · exact Or.inl h
  · simp only [timePhase] at h
    split at h
    · rcases timeDispatch_fire_bound env _ id fuel _ _ h with hw | hle
      · exact Or.inl (filePhase_log_fire env w flags fuel id hw)
      · exact Or.inr hle
    · exact Or.inl (filePhase_log_fire env w flags fuel id h)

/-- Pre-existing timer for the C6 witness, id 0, due immediately. -/
def te60 : aeTimeEvent :=
  { id := 0, when_sec := 0, when_ms := 100, timeProc := 0,
    finalizerProc := none, clientData := 0 }

/-- Timer the C6 witness callback creates mid-pass: id 1, also due
immediately. -/
def te61 : aeTimeEvent :=
  { id := 1, when_sec := 0, when_ms := 100, timeProc := 0,
    finalizerProc := none, clientData := 0 }

/-- The world the C6 witness starts from: the single timer `te60`,
next id 1. -/
def w60 : World :=
  { loop :=
      { timeEventNextId := 1
        fileEventHead := []
        timeEventHead := [te60]
        stop := false }
    tick := 0
    log := [] }

/-- The loop update made by the C6 witness callback: register `te61`,
taking the next id, exactly as `aeCreateTimeEvent` would. -/
def spawn61 (l : aeEventLoop) : aeEventLoop :=
  { timeEventNextId := l.timeEventNextId + 1
    fileEventHead := l.fileEventHead
    timeEventHead := te61 :: l.timeEventHead
    stop := l.stop }

/-- Environment for the C6 witness: timer 0's callback creates timer 1
(due at once) and returns `AE_NOMORE`. -/
def env60 : Env :=
  { clock := fun _ => { sec := 0, ms := 100 },
    timeProcSem := fun _ p _ _ => ((spawn61 p.1, p.2), AE_NOMORE),
    fileProcSem := fun _ p _ _ _ => p,
    finalizerSem := fun _ p _ => p,
    readyR := fun _ => false, readyW := fun _ => false, readyE := fun _ => false }

/-- C6, witness: timer 0 fires (its id 0 is at most the snapshot 0),
while timer 1 — created inside timer 0's callback, due immediately —
does not fire in that pass. -/
theorem processEvents_no_new_timer_fired_witness :
    Ev.fireTimer 0 ∈ (aeProcessEvents env60 w60 AE_TIME_EVENTS 4).1.log ∧
    (Ev.fireTimer 0 ∈ w60.log ∨
      ((0 : Nat) : Int) ≤
        ((filePhase env60 w60 AE_TIME_EVENTS 4).1.loop.timeEventNextId : Int) - 1) ∧
    Ev.fireTimer 1 ∉ (aeProcessEvents env60 w60 AE_TIME_EVENTS 4).1.log :=
  ⟨by decide, processEvents_no_new_timer_fired env60 w60 AE_TIME_EVENTS 4 0 (by decide),
    by decide⟩
